import Mathlib

set_option maxHeartbeats 1000000

/-!
Verification of the Connect4Discord game core: a shallow embedding of the
board model (src/assets/model/Board.js) and of the room logic
(Room: play, winner scan, heuristic score, minimax with alpha-beta
pruning), together with proofs of the documented properties.
-/

namespace Connect4

/-- Cell occupancy marker. Modelled from the spec: the Square and SquareType
modules are not among the provided sources; the spec describes a cell state
as Empty or Occupied by one of two sides, and Board.js distinguishes the
values EMPTY, RED and BLUE, a square being empty exactly when its type is
EMPTY. -/
inductive SquareType where
  | EMPTY
  | RED
  | BLUE
deriving DecidableEq, Repr

open SquareType

/-- A board is a column-major grid of 7 columns by 6 rows of squares, as
built by the Board constructor. Row index 5 is the bottom row: the helper
getFirstFreeSquarePos scans rows from index 5 downwards for the landing
square of a drop. -/
abbrev Board := Fin 7 → Fin 6 → SquareType

/-- A freshly constructed Board: every square empty. -/
def emptyBoard : Board := fun _ _ => EMPTY

/-- Board.hasFreeSquare: scans rows 0..5 of the column for an empty square.
Index validation of the source is performed by the callers modelled here,
which only pass indices in range. -/
def hasFreeSquare (b : Board) (x : Fin 7) : Bool :=
  (List.finRange 6).any (fun y => decide (b x y = EMPTY))

/-- Board.getFree: the free columns in ascending order. -/
def getFree (b : Board) : List (Fin 7) :=
  (List.finRange 7).filter (fun x => hasFreeSquare b x)

/-- Board.getFirstFreeSquarePos: the first empty row of the column scanning
from row 5 down to row 0; none when the column has no empty square (the
source throws there). -/
def getFirstFreeSquarePos (b : Board) (x : Fin 7) : Option (Fin 6) :=
  (List.finRange 6).reverse.find? (fun y => decide (b x y = EMPTY))

/-- Writing one square of the grid: the effect of Square.setType reached
through Board.setSquare once its validations have passed. -/
def setCell (b : Board) (x : Fin 7) (y : Fin 6) (t : SquareType) : Board :=
  fun x' y' => if x' = x ∧ y' = y then t else b x' y'

/-- Column index of a validated integer position; for 0 ≤ x < 7 this is
exactly x (the reduction modulo 7 only makes the construction total, every
use sits behind the range validation). -/
def colOf (x : ℤ) : Fin 7 := ⟨x.toNat % 7, Nat.mod_lt _ (by omega)⟩

/-- Row index of a validated integer position; for 0 ≤ y < 6 this is
exactly y. -/
def rowOf (y : ℤ) : Fin 6 := ⟨y.toNat % 6, Nat.mod_lt _ (by omega)⟩

theorem colOf_eq {pos : ℤ} {x : Fin 7} (h : (x.val : ℤ) = pos) : colOf pos = x := by
  have := x.isLt
  apply Fin.ext
  unfold colOf
  simp only []
  omega

theorem rowOf_eq {pos : ℤ} {y : Fin 6} (h : (y.val : ℤ) = pos) : rowOf pos = y := by
  have := y.isLt
  apply Fin.ext
  unfold rowOf
  simp only []
  omega

/-- Board.setSquare with its five validations, on integer indices as the
source receives them (the isNaN checks of the source have no counterpart
on integers). -/
def setSquare (b : Board) (x y : ℤ) (t : SquareType) : Except String Board :=
  if x < 0 ∨ 7 ≤ x then .error "X pos of the square invalid."
  else if y < 0 ∨ 6 ≤ y then .error "Y pos of the square invalid."
  else if t = EMPTY then .error "Cannot set the value of a square as empty."
  else if ¬ (b (colOf x) (rowOf y) = EMPTY) then .error "The square is not empty."
  else if t ≠ RED ∧ t ≠ BLUE then .error "Invalid type of square."
  else .ok (setCell b (colOf x) (rowOf y) t)

/-! ### Windows: runs of four consecutive squares -/

abbrev Cell := Fin 7 × Fin 6

abbrev Window := Cell × Cell × Cell × Cell

def cellsOf (w : Window) : List Cell := [w.1, w.2.1, w.2.2.1, w.2.2.2]

def cellAt (b : Board) (c : Cell) : SquareType := b c.1 c.2

/-- Vertical runs in the scan order of the source loops: column ascending,
start row descending from 5 while above 2; each run lists its squares
upwards from the start row (the loop decrements the row counter). -/
def windowsV : List Window :=
  (List.finRange 7).flatMap (fun x =>
    ([5, 4, 3] : List (Fin 6)).map (fun y =>
      ((x, y), (x, y - 1), (x, y - 2), (x, y - 3))))

/-- Horizontal runs in the scan order of the source loops: row descending
from 5, start column ascending from 0 to 3. -/
def windowsH : List Window :=
  ([5, 4, 3, 2, 1, 0] : List (Fin 6)).flatMap (fun y =>
    ([0, 1, 2, 3] : List (Fin 7)).map (fun x =>
      ((x, y), (x + 1, y), (x + 2, y), (x + 3, y))))

/-- Diagonal runs in the scan order of the source loops: start column 0..3,
start row 5..3, stepping one column right and one row up. -/
def windowsD : List Window :=
  ([0, 1, 2, 3] : List (Fin 7)).flatMap (fun x =>
    ([5, 4, 3] : List (Fin 6)).map (fun y =>
      ((x, y), (x + 1, y - 1), (x + 2, y - 2), (x + 3, y - 3))))

/-- Anti-diagonal runs in the scan order of the source loops: start column
6..3, start row 5..3, stepping one column left and one row up. -/
def windowsA : List Window :=
  ([6, 5, 4, 3] : List (Fin 7)).flatMap (fun x =>
    ([5, 4, 3] : List (Fin 6)).map (fun y =>
      ((x, y), (x - 1, y - 1), (x - 2, y - 2), (x - 3, y - 3))))

/-- All runs, in the order the winner scan of the source visits them. -/
def srcWindows : List Window := windowsV ++ windowsH ++ windowsD ++ windowsA

/-- One run check of the winner scan: the while loop of the source advances
over the four squares while they are non-empty and equal to the type of the
first square, and reports that type exactly when it crosses the whole run. -/
def win4 (b : Board) (w : Window) : Option SquareType :=
  if cellAt b w.1 ≠ EMPTY ∧ cellAt b w.2.1 = cellAt b w.1 ∧
      cellAt b w.2.2.1 = cellAt b w.1 ∧ cellAt b w.2.2.2 = cellAt b w.1 then
    some (cellAt b w.1)
  else none

/-- Room winner scan (written _getSquareTypeWinner in the source): the type
of the first full run found in scan order, none when there is none. -/
def getSquareTypeWinner (b : Board) : Option SquareType :=
  srcWindows.findSome? (win4 b)

/-- Room.isOver: the board has no free column or some player has a run of
four. -/
def isOver (b : Board) : Bool :=
  decide ((getFree b).length = 0) || decide (getSquareTypeWinner b ≠ none)

/-! ### Heuristic score -/

def CENTER_POINTS : ℤ := 4
def LINES2_POINTS : ℤ := 2
def LINES3_POINTS : ℤ := 5
def WIN_POINTS : ℤ := 10000
def OPP_LINES2_POINTS : ℤ := -2
def OPP_LINES3_POINTS : ℤ := -5
def OPP_WIN_POINTS : ℤ := -1000

/-- Room score table for one run (written _calcScore in the source). -/
def calcScore (nbEmpty nbSquare : ℕ) : ℤ :=
  match nbEmpty, nbSquare with
  | 0, 0 => OPP_WIN_POINTS
  | 0, 4 => WIN_POINTS
  | 1, 0 => OPP_LINES3_POINTS
  | 1, 3 => LINES3_POINTS
  | 2, 0 => OPP_LINES2_POINTS
  | 2, 2 => LINES2_POINTS
  | _, _ => 0

/-- Number of empty squares of a run, as counted by the score loops. -/
def nbEmptyIn (b : Board) (w : Window) : ℕ :=
  (cellsOf w).countP (fun c => decide (cellAt b c = EMPTY))

/-- Number of squares of the given mark in a run: the score loops count a
square for the player when it is not empty and its type is the mark. -/
def nbPlayerIn (b : Board) (mark : SquareType) (w : Window) : ℕ :=
  (cellsOf w).countP (fun c => decide (¬ cellAt b c = EMPTY ∧ cellAt b c = mark))

def windowScore (b : Board) (mark : SquareType) (w : Window) : ℤ :=
  calcScore (nbEmptyIn b w) (nbPlayerIn b mark w)

/-- Middle column of the board, floor of cols / 2 as in the source. -/
def centerCol : Fin 7 := ⟨7 / 2, by decide⟩

/-- Center part of Room score: CENTER_POINTS per square of the given mark in
the middle column, scanned from row 5 down to row 0. -/
def centerScore (b : Board) (mark : SquareType) : ℤ :=
  (([5, 4, 3, 2, 1, 0] : List (Fin 6)).map
    (fun y => if b centerCol y = mark then CENTER_POINTS else 0)).sum

/-- Room heuristic score (written _getScore in the source): center bonus
plus the run scores of the four orientations, each accumulated in the scan
order of its loops. -/
def getScore (b : Board) (mark : SquareType) : ℤ :=
  centerScore b mark
    + (windowsV.map (windowScore b mark)).sum
    + (windowsH.map (windowScore b mark)).sum
    + (windowsD.map (windowScore b mark)).sum
    + (windowsA.map (windowScore b mark)).sum

/-! ### Specification-side window enumeration

The spec describes the win scan and the heuristic in terms of "every
possible 4-cell run" per orientation. The enumeration below follows the
spec words directly (all start coordinates in ascending order), and is
deliberately independent of the scan order of the source loops. -/

/-- Every vertical 4-cell run: each column, each start row 0..2, the run
going downwards (towards larger row index). -/
def specWindowsV : List Window :=
  (List.finRange 7).flatMap (fun x =>
    ([0, 1, 2] : List (Fin 6)).map (fun y =>
      ((x, y + 3), (x, y + 2), (x, y + 1), (x, y))))

/-- Every horizontal 4-cell run: start columns 0..3, each row. -/
def specWindowsH : List Window :=
  ([0, 1, 2, 3] : List (Fin 7)).flatMap (fun x =>
    (List.finRange 6).map (fun y =>
      ((x, y), (x + 1, y), (x + 2, y), (x + 3, y))))

/-- Every diagonal 4-cell run (one column right, one row up). -/
def specWindowsD : List Window :=
  ([0, 1, 2, 3] : List (Fin 7)).flatMap (fun x =>
    ([0, 1, 2] : List (Fin 6)).map (fun y =>
      ((x, y + 3), (x + 1, y + 2), (x + 2, y + 1), (x + 3, y))))

/-- Every anti-diagonal 4-cell run (one column left, one row up). -/
def specWindowsA : List Window :=
  ([3, 4, 5, 6] : List (Fin 7)).flatMap (fun x =>
    ([0, 1, 2] : List (Fin 6)).map (fun y =>
      ((x, y + 3), (x - 1, y + 2), (x - 2, y + 1), (x - 3, y))))

/-- Every 4-cell run of the board along one of the four orientations. -/
def specWindows : List Window :=
  specWindowsV ++ specWindowsH ++ specWindowsD ++ specWindowsA

/-- A side owns a run of four contiguous cells somewhere on the board. -/
def sideHasRun (b : Board) (t : SquareType) : Prop :=
  ∃ w ∈ specWindows, ∀ c ∈ cellsOf w, cellAt b c = t

instance (b : Board) (t : SquareType) : Decidable (sideHasRun b t) := by
  unfold sideHasRun; infer_instance

/-! ### List scan helper lemmas -/

theorem find?_eq_some_split {α : Type} {p : α → Bool} :
    ∀ {l : List α} {a : α}, l.find? p = some a →
      p a = true ∧ ∃ l₁ l₂, l = l₁ ++ a :: l₂ ∧ ∀ x ∈ l₁, p x = false := by
  intro l
  induction l with
  | nil => intro a h; simp [List.find?] at h
  | cons x xs ih =>
    intro a h
    by_cases hx : p x = true
    · rw [List.find?_cons_of_pos _ hx] at h
      cases h
      exact ⟨hx, [], xs, rfl, by simp⟩
    · rw [List.find?_cons_of_neg _ hx] at h
      obtain ⟨hp, l₁, l₂, hsplit, hbefore⟩ := ih h
      refine ⟨hp, x :: l₁, l₂, by simp [hsplit], ?_⟩
      intro z hz
      rcases List.mem_cons.mp hz with rfl | hz
      · simpa using hx
      · exact hbefore z hz

/-! ### Characterization of the board scans -/

theorem hasFreeSquare_iff (b : Board) (x : Fin 7) :
    hasFreeSquare b x = true ↔ ∃ y, b x y = EMPTY := by
  unfold hasFreeSquare
  rw [List.any_eq_true]
  constructor
  · rintro ⟨y, _, hy⟩; exact ⟨y, of_decide_eq_true hy⟩
  · rintro ⟨y, hy⟩; exact ⟨y, List.mem_finRange y, decide_eq_true hy⟩

theorem mem_getFree_iff (b : Board) (x : Fin 7) :
    x ∈ getFree b ↔ hasFreeSquare b x = true := by
  unfold getFree
  rw [List.mem_filter]
  simp [List.mem_finRange]

/-- Soundness of the landing-row scan: the returned row is empty and every
row strictly below it (larger index) is occupied, which is exactly what
"lowest empty cell of the column" means with row 5 at the bottom. -/
theorem getFirstFree_spec {b : Board} {x : Fin 7} {y : Fin 6}
    (h : getFirstFreeSquarePos b x = some y) :
    b x y = EMPTY ∧ ∀ y' : Fin 6, y < y' → b x y' ≠ EMPTY := by
  obtain ⟨hp, l₁, l₂, hsplit, hbefore⟩ := find?_eq_some_split h
  have hdesc : ((List.finRange 6).reverse).Pairwise (fun a c : Fin 6 => c < a) := by decide
  refine ⟨of_decide_eq_true hp, ?_⟩
  intro y' hy' hempty
  have hmem : y' ∈ (List.finRange 6).reverse := by
    simpa using List.mem_finRange y'
  rw [hsplit] at hmem hdesc
  have hsplit' := (List.pairwise_append.mp hdesc).2.2
  rcases List.mem_append.mp hmem with h₁ | h₂
  · have := hbefore y' h₁
    rw [decide_eq_true hempty] at this
    simp at this
  · rcases List.mem_cons.mp h₂ with rfl | h₂
    · exact lt_irrefl y' hy'
    · have : y' < y := by
        have h3 := (List.pairwise_cons.mp ((List.pairwise_append.mp hdesc).2.1)).1
        exact h3 y' h₂
      exact absurd hy' (not_lt_of_gt this)

theorem getFirstFree_none_iff (b : Board) (x : Fin 7) :
    getFirstFreeSquarePos b x = none ↔ ∀ y, b x y ≠ EMPTY := by
  unfold getFirstFreeSquarePos
  rw [List.find?_eq_none]
  constructor
  · intro h y hy
    exact h y (by simpa using List.mem_finRange y) (decide_eq_true hy)
  · intro h y _ hy
    exact h y (of_decide_eq_true hy)

theorem getFirstFree_isSome_of_hasFree {b : Board} {x : Fin 7}
    (h : hasFreeSquare b x = true) : ∃ y, getFirstFreeSquarePos b x = some y := by
  rcases hfind : getFirstFreeSquarePos b x with _ | y
  · obtain ⟨y, hy⟩ := (hasFreeSquare_iff b x).mp h
    exact absurd hy ((getFirstFree_none_iff b x).mp hfind y)
  · exact ⟨y, rfl⟩

/-! ### C2: the winner scan -/

theorem win4_eq_some_iff (b : Board) (w : Window) (t : SquareType) :
    win4 b w = some t ↔ (t ≠ EMPTY ∧ ∀ c ∈ cellsOf w, cellAt b c = t) := by
  unfold win4 cellsOf
  constructor
  · intro h
    split at h
    · rename_i hcond
      obtain ⟨h0, h1, h2, h3⟩ := hcond
      injection h with h
      subst h
      refine ⟨h0, ?_⟩
      intro c hc
      simp only [List.mem_cons, List.not_mem_nil, or_false] at hc
      rcases hc with rfl | rfl | rfl | rfl <;> simp [h1, h2, h3]
    · cases h
  · rintro ⟨ht, hall⟩
    have e0 : cellAt b w.1 = t := hall w.1 (by simp)
    have e1 : cellAt b w.2.1 = t := hall w.2.1 (by simp)
    have e2 : cellAt b w.2.2.1 = t := hall w.2.2.1 (by simp)
    have e3 : cellAt b w.2.2.2 = t := hall w.2.2.2 (by simp)
    rw [if_pos ⟨by rw [e0]; exact ht, by rw [e0, e1], by rw [e0, e2], by rw [e0, e3]⟩, e0]

theorem srcWindows_eq_specWindows_perm : srcWindows.Perm specWindows := by decide

theorem mem_srcWindows_iff (w : Window) : w ∈ srcWindows ↔ w ∈ specWindows :=
  srcWindows_eq_specWindows_perm.mem_iff

theorem winner_sound {b : Board} {t : SquareType}
    (h : getSquareTypeWinner b = some t) : t ≠ EMPTY ∧ sideHasRun b t := by
  obtain ⟨w, hw, hwin⟩ := List.exists_of_findSome?_eq_some h
  obtain ⟨ht, hall⟩ := (win4_eq_some_iff b w t).mp hwin
  exact ⟨ht, w, (mem_srcWindows_iff w).mp hw, hall⟩

theorem winner_none_iff (b : Board) :
    getSquareTypeWinner b = none ↔ ¬ ∃ t, t ≠ EMPTY ∧ sideHasRun b t := by
  unfold getSquareTypeWinner
  rw [List.findSome?_eq_none_iff]
  constructor
  · rintro h ⟨t, ht, w, hw, hall⟩
    have := h w ((mem_srcWindows_iff w).mpr hw)
    rw [(win4_eq_some_iff b w t).mpr ⟨ht, hall⟩] at this
    cases this
  · intro h w hw
    rcases hwin : win4 b w with _ | t
    · rfl
    · obtain ⟨ht, hall⟩ := (win4_eq_some_iff b w t).mp hwin
      exact absurd ⟨t, ht, w, (mem_srcWindows_iff w).mp hw, hall⟩ h

/-- Board with a vertical red run in column 0, used as concrete witness. -/
def witnessBoardRed : Board :=
  fun x y => if x = 0 ∧ (y = 5 ∨ y = 4 ∨ y = 3 ∨ y = 2) then RED else EMPTY

/-- C2: the winner scan returns a side only when that side owns a run of
four contiguous same-side cells along one of the four orientations; it
returns no winner exactly when no side owns such a run; in particular it
returns no winner on the empty board. -/
theorem C2_winner_scan (b : Board) :
    (∀ t, getSquareTypeWinner b = some t → t ≠ EMPTY ∧ sideHasRun b t) ∧
    (getSquareTypeWinner b = none ↔ ¬ ∃ t, t ≠ EMPTY ∧ sideHasRun b t) ∧
    getSquareTypeWinner emptyBoard = none :=
  ⟨fun _ h => winner_sound h, winner_none_iff b, by decide⟩

/-- Witness for C2 on a board holding a concrete vertical red run. -/
theorem C2_winner_scan_witness : RED ≠ EMPTY ∧ sideHasRun witnessBoardRed RED :=
  (C2_winner_scan witnessBoardRed).1 RED (by decide)

/-! ### C6: the heuristic score against the spec formula -/

/-- Count of cells of a given side in a run, as the spec words it. -/
def specCntSide (b : Board) (mark : SquareType) (w : Window) : ℕ :=
  (cellsOf w).countP (fun c => decide (cellAt b c = mark))

/-- The per-window score table of the spec, keyed on the number of empty
cells and the number of cells of the side being scored. -/
def specTable (nEmpty nSide : ℕ) : ℤ :=
  if nEmpty = 0 ∧ nSide = 4 then 10000
  else if nEmpty = 0 ∧ nSide = 0 then -1000
  else if nEmpty = 1 ∧ nSide = 3 then 5
  else if nEmpty = 1 ∧ nSide = 0 then -5
  else if nEmpty = 2 ∧ nSide = 2 then 2
  else if nEmpty = 2 ∧ nSide = 0 then -2
  else 0

/-- The heuristic as the spec words it: 4 points per cell of the side in
the center column, plus the table value of every 4-cell window. -/
def specScore (b : Board) (mark : SquareType) : ℤ :=
  4 * ((List.finRange 6).countP (fun y => decide (b centerCol y = mark)) : ℤ)
    + (specWindows.map (fun w => specTable (nbEmptyIn b w) (specCntSide b mark w))).sum

theorem calcScore_eq_specTable (e s : ℕ) : calcScore e s = specTable e s := by
  unfold calcScore specTable WIN_POINTS OPP_WIN_POINTS LINES3_POINTS
    OPP_LINES3_POINTS LINES2_POINTS OPP_LINES2_POINTS
  rcases e with _ | _ | _ | e <;> rcases s with _ | _ | _ | _ | _ | s <;> simp

theorem nbPlayerIn_eq_specCnt (b : Board) {mark : SquareType} (h : mark ≠ EMPTY)
    (w : Window) : nbPlayerIn b mark w = specCntSide b mark w := by
  unfold nbPlayerIn specCntSide
  apply List.countP_congr
  intro c _
  by_cases hc : cellAt b c = mark
  · have : ¬ cellAt b c = EMPTY := by rw [hc]; exact h
    simp [hc, this, h]
  · simp [hc]

theorem sum_ite_eq_countP {α : Type} (p : α → Prop) [DecidablePred p] (c : ℤ)
    (l : List α) :
    (l.map (fun a => if p a then c else 0)).sum
      = c * (l.countP (fun a => decide (p a)) : ℤ) := by
  induction l with
  | nil => simp
  | cons x xs ih =>
    by_cases hx : p x <;>
      simp [hx, ih, List.countP_cons] <;> push_cast <;> ring

theorem centerScore_eq (b : Board) (mark : SquareType) :
    centerScore b mark
      = 4 * ((List.finRange 6).countP (fun y => decide (b centerCol y = mark)) : ℤ) := by
  unfold centerScore CENTER_POINTS
  rw [sum_ite_eq_countP]
  have hperm : ([5, 4, 3, 2, 1, 0] : List (Fin 6)).Perm (List.finRange 6) := by decide
  rw [hperm.countP_eq]

theorem getScore_eq_specScore (b : Board) {mark : SquareType} (h : mark ≠ EMPTY) :
    getScore b mark = specScore b mark := by
  unfold getScore specScore
  rw [centerScore_eq]
  have hmap : windowScore b mark
      = fun w => specTable (nbEmptyIn b w) (specCntSide b mark w) := by
    funext w
    unfold windowScore
    rw [calcScore_eq_specTable, nbPlayerIn_eq_specCnt b h]
  rw [hmap]
  have hsplit : (specWindows.map
        (fun w => specTable (nbEmptyIn b w) (specCntSide b mark w))).sum
      = (windowsV.map (fun w => specTable (nbEmptyIn b w) (specCntSide b mark w))).sum
        + (windowsH.map (fun w => specTable (nbEmptyIn b w) (specCntSide b mark w))).sum
        + (windowsD.map (fun w => specTable (nbEmptyIn b w) (specCntSide b mark w))).sum
        + (windowsA.map (fun w => specTable (nbEmptyIn b w) (specCntSide b mark w))).sum := by
    rw [← (srcWindows_eq_specWindows_perm.map
      (fun w => specTable (nbEmptyIn b w) (specCntSide b mark w))).sum_eq]
    simp [srcWindows, List.map_append, List.sum_append, add_assoc]
  rw [hsplit]
  ring

/-- C6: for either side, the heuristic score of the source equals the spec
formula: 4 points per cell of that side in the center column plus, for
every 4-cell window in each orientation, the table value keyed on the
number of empty cells and of cells of that side. -/
theorem C6_heuristic_score (b : Board) :
    getScore b RED = specScore b RED ∧ getScore b BLUE = specScore b BLUE :=
  ⟨getScore_eq_specScore b (by decide), getScore_eq_specScore b (by decide)⟩

/-! ### C7: side-swap symmetry of the heuristic -/

/-- Exchange of the two sides; empty squares are untouched. -/
def swapMark : SquareType → SquareType
  | EMPTY => EMPTY
  | RED => BLUE
  | BLUE => RED

/-- The board with every red mark replaced by blue and conversely. -/
def swapBoard (b : Board) : Board := fun x y => swapMark (b x y)

theorem swapMark_eq_empty_iff (s : SquareType) : swapMark s = EMPTY ↔ s = EMPTY := by
  cases s <;> simp [swapMark]

theorem swapMark_inj_iff (s m : SquareType) : swapMark s = swapMark m ↔ s = m := by
  cases s <;> cases m <;> simp [swapMark]

theorem nbEmptyIn_swap (b : Board) (w : Window) :
    nbEmptyIn (swapBoard b) w = nbEmptyIn b w := by
  unfold nbEmptyIn
  apply List.countP_congr
  intro c _
  simp [cellAt, swapBoard, swapMark_eq_empty_iff]

theorem nbPlayerIn_swap (b : Board) (m : SquareType) (w : Window) :
    nbPlayerIn (swapBoard b) (swapMark m) w = nbPlayerIn b m w := by
  unfold nbPlayerIn
  apply List.countP_congr
  intro c _
  simp [cellAt, swapBoard, swapMark_eq_empty_iff, swapMark_inj_iff]

theorem centerScore_swap (b : Board) (m : SquareType) :
    centerScore (swapBoard b) (swapMark m) = centerScore b m := by
  unfold centerScore
  congr 1
  apply List.map_congr_left
  intro y _
  simp [swapBoard, swapMark_inj_iff]

theorem getScore_swapBoard (b : Board) (m : SquareType) :
    getScore (swapBoard b) (swapMark m) = getScore b m := by
  unfold getScore
  rw [centerScore_swap]
  have hws : windowScore (swapBoard b) (swapMark m) = windowScore b m := by
    funext w
    unfold windowScore
    rw [nbEmptyIn_swap, nbPlayerIn_swap]
  rw [hws]

/-- C7: scoring a board for one side equals scoring the side-swapped board
for the other side. -/
theorem C7_score_side_swap (b : Board) :
    getScore b RED = getScore (swapBoard b) BLUE ∧
    getScore b BLUE = getScore (swapBoard b) RED :=
  ⟨(getScore_swapBoard b RED).symm, (getScore_swapBoard b BLUE).symm⟩

/-! ### C4: gravity invariant and write-once squares -/

/-- One accepted drop: Room.play validates the column, finds the lowest
empty square of the column with getFirstFreeSquarePos and writes the
current player mark (red or blue) there through Board.setSquare. Every
board mutation of the source goes through this path, for human moves and
chained bot moves alike. -/
def DropStep (b b' : Board) : Prop :=
  ∃ (x : Fin 7) (y : Fin 6) (t : SquareType),
    (t = RED ∨ t = BLUE) ∧ getFirstFreeSquarePos b x = some y ∧ b' = setCell b x y t

/-- Boards of a Match reachable from construction by accepted play calls. -/
def ReachableBoard (b : Board) : Prop :=
  Relation.ReflTransGen DropStep emptyBoard b

/-- Gravity: in every column the occupied squares form a contiguous run
starting at the bottom row (row index 5): every square below an occupied
square is occupied. -/
def Gravity (b : Board) : Prop :=
  ∀ (x : Fin 7) (y y' : Fin 6), y ≤ y' → b x y ≠ EMPTY → b x y' ≠ EMPTY

theorem gravity_emptyBoard : Gravity emptyBoard := by
  intro x y y' _ hy
  exact absurd rfl hy

theorem dropStep_preserves {b b' : Board} (hstep : DropStep b b') :
    ∀ x y, b x y ≠ EMPTY → b' x y = b x y := by
  obtain ⟨x0, y0, t, _, hfind, rfl⟩ := hstep
  intro x y hocc
  unfold setCell
  split
  · rename_i hxy
    obtain ⟨rfl, rfl⟩ := hxy
    exact absurd (getFirstFree_spec hfind).1 hocc
  · rfl

theorem gravity_step {b b' : Board} (hg : Gravity b) (hstep : DropStep b b') :
    Gravity b' := by
  obtain ⟨x0, y0, t, ht, hfind, rfl⟩ := hstep
  obtain ⟨hempty, hbelow⟩ := getFirstFree_spec hfind
  have htne : t ≠ EMPTY := by rcases ht with rfl | rfl <;> simp
  intro x y y' hle hocc
  unfold setCell at hocc ⊢
  by_cases hnew : x = x0 ∧ y' = y0
  · rw [if_pos hnew]; exact htne
  · rw [if_neg hnew]
    by_cases hold : x = x0 ∧ y = y0
    · obtain ⟨hx, hy⟩ := hold
      have hy0 : y0 < y' := by
        rcases lt_or_eq_of_le hle with h | h
        · rw [hy] at h; exact h
        · exact absurd ⟨hx, by rw [← h]; exact hy⟩ hnew
      rw [hx]
      exact hbelow y' hy0
    · rw [if_neg hold] at hocc
      exact hg x y y' hle hocc

theorem reachable_gravity {b : Board} (h : ReachableBoard b) : Gravity b := by
  induction h with
  | refl => exact gravity_emptyBoard
  | tail _ hstep ih => exact gravity_step ih hstep

/-- C4: every board reachable by accepted play calls satisfies gravity
(occupied squares of a column form a contiguous run from the bottom row),
and an accepted drop never changes an occupied square: a square is written
at most once and never cleared or flipped to the other mark. -/
theorem C4_gravity_invariant :
    (∀ b, ReachableBoard b → Gravity b) ∧
    (∀ b b', DropStep b b' → ∀ x y, b x y ≠ EMPTY → b' x y = b x y) :=
  ⟨fun _ h => reachable_gravity h, fun _ _ hstep => dropStep_preserves hstep⟩

/-- Witness for C4: the board after one concrete accepted drop from the
start position satisfies gravity. -/
theorem C4_gravity_invariant_witness : Gravity (setCell emptyBoard 0 5 RED) :=
  C4_gravity_invariant.1 _
    (Relation.ReflTransGen.single ⟨0, 5, RED, Or.inl rfl, by decide, rfl⟩)

/-! ### C8: evolution of the landing row across a drop -/

/-- Counterexample to C8 as stated: dropping into column 0 of the empty
board moves the landing row from index 5 to index 4, a strict decrease,
not a strict increase. -/
theorem C8_counterexample :
    getFirstFreeSquarePos emptyBoard 0 = some 5 ∧
    getFirstFreeSquarePos (setCell emptyBoard 0 5 RED) 0 = some 4 ∧
    ¬ ((5 : Fin 6) < (4 : Fin 6)) := by decide

/-- C8 (amended): after a successful drop, the row index returned by
getFirstFreeSquarePos for that column strictly decreases (the source
numbers rows from the top, the bottom row having the largest index 5), or
the column becomes full; and hasFreeSquare reports exactly whether an
empty square remains. -/
theorem C8_landing_row (b : Board) (x : Fin 7) (y : Fin 6) (t : SquareType)
    (ht : t ≠ EMPTY) (hfind : getFirstFreeSquarePos b x = some y) :
    (getFirstFreeSquarePos (setCell b x y t) x = none ∨
      ∃ y', getFirstFreeSquarePos (setCell b x y t) x = some y' ∧ y' < y) ∧
    (∀ (b0 : Board) (x0 : Fin 7),
      hasFreeSquare b0 x0 = true ↔ ∃ y0, b0 x0 y0 = EMPTY) := by
  refine ⟨?_, hasFreeSquare_iff⟩
  obtain ⟨hempty, hbelow⟩ := getFirstFree_spec hfind
  rcases h' : getFirstFreeSquarePos (setCell b x y t) x with _ | y'
  · exact Or.inl rfl
  · refine Or.inr ⟨y', rfl, ?_⟩
    obtain ⟨hempty', _⟩ := getFirstFree_spec h'
    by_contra hnot
    rcases lt_or_eq_of_le (le_of_not_lt hnot) with hlt | heq
    · have hne : ¬ (x = x ∧ y' = y) := by
        rintro ⟨-, rfl⟩; exact lt_irrefl y' hlt
      rw [setCell, if_neg hne] at hempty'
      exact hbelow y' hlt hempty'
    · subst heq
      rw [setCell, if_pos ⟨rfl, rfl⟩] at hempty'
      exact ht hempty'

/-- Witness for C8 (amended) at a concrete drop on the empty board. -/
theorem C8_landing_row_witness :
    (getFirstFreeSquarePos (setCell emptyBoard 0 5 RED) 0 = none ∨
      ∃ y', getFirstFreeSquarePos (setCell emptyBoard 0 5 RED) 0 = some y' ∧
        y' < (5 : Fin 6)) ∧
    (∀ (b0 : Board) (x0 : Fin 7),
      hasFreeSquare b0 x0 = true ↔ ∃ y0, b0 x0 y0 = EMPTY) :=
  C8_landing_row emptyBoard 0 5 RED (by decide) (by decide)

/-! ### The Match (Room) state machine -/

/-- Control mode of a player, from the PlayerType module referenced by the
source. -/
inductive PlayerType where
  | HUMAN
  | EASY_BOT
  | NORMAL_BOT
  | STUPID_BOT
  | RANDOM_BOT
  | CHEAT_BOT
deriving DecidableEq, Repr

/-- A player record: its mark and its control mode. The chat identity the
source stores alongside plays no role in the game logic. -/
structure Player where
  mark : SquareType
  ptype : PlayerType
deriving DecidableEq, Repr

/-- The Room state: the board, the two players, and the index of the
current player. -/
structure Match where
  board : Board
  players : Fin 2 → Player
  current : Fin 2

/-- The failures Room.play can surface: the two validations of play
itself, and any error raised below it by Board.setSquare. -/
inductive PlayError where
  | invalidColumn
  | columnFull
  | boardError (msg : String)
deriving DecidableEq, Repr

/-- One layer of Room.play without the chained bot move: validate the
column, write the current player mark on the lowest empty square through
Board.setSquare, and, when the game is not over after the drop, advance
the turn to the other player. The source throws before any mutation, so an
error leaves the state untouched, which the returned pair makes explicit. -/
def playStep (m : Match) (pos : ℤ) : Option PlayError × Match :=
  if pos < 0 ∨ 7 ≤ pos then (some .invalidColumn, m)
  else if hasFreeSquare m.board (colOf pos) then
    match getFirstFreeSquarePos m.board (colOf pos) with
    | some y =>
      match setSquare m.board ((colOf pos).val : ℤ) (y.val : ℤ)
          ((m.players m.current).mark) with
      | .ok b' =>
        (none, { m with board := b',
                        current := if isOver b' then m.current else m.current + 1 })
      | .error e => (some (.boardError e), m)
    | none => (some .columnFull, m)
  else (some .columnFull, m)

/-- Room.getWinner: fails while the game is in progress; otherwise returns
the player owning the winning run, or no player on a draw. -/
def getWinner (m : Match) : Except String (Option Player) :=
  if isOver m.board then
    match getSquareTypeWinner m.board with
    | none => .ok none
    | some t => .ok (some (if (m.players 0).mark = t then m.players 0 else m.players 1))
  else .error "Cannot get the winner while the game is in progress."

theorem fin2_cases (i : Fin 2) : i = 0 ∨ i = 1 := by
  rcases i with ⟨v, hv⟩
  interval_cases v
  · exact Or.inl rfl
  · exact Or.inr rfl

theorem setSquare_ok (b : Board) (x : Fin 7) (y : Fin 6) {t : SquareType}
    (hempty : b x y = EMPTY) (ht : t = RED ∨ t = BLUE) :
    setSquare b (x.val : ℤ) (y.val : ℤ) t = .ok (setCell b x y t) := by
  have hx7 := x.isLt
  have hy6 := y.isLt
  have hcx : colOf (x.val : ℤ) = x := colOf_eq rfl
  have hcy : rowOf (y.val : ℤ) = y := rowOf_eq rfl
  have htne : t ≠ EMPTY := by rcases ht with rfl | rfl <;> simp
  have htrb : ¬ (t ≠ RED ∧ t ≠ BLUE) := by
    rcases ht with rfl | rfl <;> simp
  unfold setSquare
  rw [hcx, hcy, if_neg (by omega), if_neg (by omega), if_neg htne,
    if_neg (by simp [hempty]), if_neg htrb]

theorem setSquare_ok_inv {b : Board} {x y : ℤ} {t : SquareType} {b' : Board}
    (h : setSquare b x y t = .ok b') :
    t ≠ EMPTY ∧ b (colOf x) (rowOf y) = EMPTY ∧
      b' = setCell b (colOf x) (rowOf y) t := by
  unfold setSquare at h
  split_ifs at h with h1 h2 h3 h4 h5
  injection h with h
  exact ⟨h3, h4, h.symm⟩

/-- Validity of a Match as the Room constructor establishes it: the two
players carry distinct marks, blue and red. -/
def ValidMatch (m : Match) : Prop :=
  ((m.players 0).mark = RED ∨ (m.players 0).mark = BLUE) ∧
  ((m.players 1).mark = RED ∨ (m.players 1).mark = BLUE) ∧
  (m.players 0).mark ≠ (m.players 1).mark

theorem validMatch_current {m : Match} (h : ValidMatch m) :
    (m.players m.current).mark = RED ∨ (m.players m.current).mark = BLUE := by
  rcases fin2_cases m.current with hc | hc <;> rw [hc]
  · exact h.1
  · exact h.2.1

theorem playStep_out_of_range (m : Match) {pos : ℤ} (h : pos < 0 ∨ 7 ≤ pos) :
    playStep m pos = (some .invalidColumn, m) := by
  unfold playStep
  rw [if_pos h]

theorem playStep_column_full (m : Match) {pos : ℤ} (h : ¬ (pos < 0 ∨ 7 ≤ pos))
    (hfree : hasFreeSquare m.board (colOf pos) = false) :
    playStep m pos = (some .columnFull, m) := by
  unfold playStep
  rw [if_neg h, if_neg (by simp [hfree])]

theorem playStep_success (m : Match) {pos : ℤ} (h : ¬ (pos < 0 ∨ 7 ≤ pos))
    (hfree : hasFreeSquare m.board (colOf pos) = true)
    (hmark : (m.players m.current).mark = RED ∨ (m.players m.current).mark = BLUE) :
    ∃ y, getFirstFreeSquarePos m.board (colOf pos) = some y ∧
      playStep m pos =
        (none,
         { m with
            board := setCell m.board (colOf pos) y ((m.players m.current).mark),
            current :=
              if isOver (setCell m.board (colOf pos) y ((m.players m.current).mark))
              then m.current else m.current + 1 }) := by
  obtain ⟨y, hy⟩ := getFirstFree_isSome_of_hasFree hfree
  have hempty := (getFirstFree_spec hy).1
  refine ⟨y, hy, ?_⟩
  unfold playStep
  rw [if_neg h, if_pos hfree, hy]
  simp only [setSquare_ok m.board (colOf pos) y hempty hmark]

/-- C1: play fails with InvalidColumn exactly when the integer column is
outside 0..6; it fails with ColumnFull exactly when the column is in range
but has no empty square; otherwise it writes the current player mark into
the lowest empty square of that column, the empty square with every square
below it (larger row index) occupied; and on any failure the returned
state, board and turn pointer alike, is exactly the state before the
call. The mark hypothesis is what the Room constructor establishes. -/
theorem C1_play_validation (m : Match) (pos : ℤ)
    (hmark : (m.players m.current).mark = RED ∨ (m.players m.current).mark = BLUE) :
    ((playStep m pos).1 = some .invalidColumn ↔ pos < 0 ∨ 7 ≤ pos) ∧
    ((playStep m pos).1 = some .columnFull ↔
      (0 ≤ pos ∧ pos < 7 ∧ ∀ x : Fin 7, (x.val : ℤ) = pos →
        ∀ y, m.board x y ≠ EMPTY)) ∧
    (∀ x : Fin 7, (x.val : ℤ) = pos → hasFreeSquare m.board x = true →
      ∃ y, getFirstFreeSquarePos m.board x = some y ∧
        m.board x y = EMPTY ∧ (∀ y', y < y' → m.board x y' ≠ EMPTY) ∧
        (playStep m pos).1 = none ∧
        (playStep m pos).2.board = setCell m.board x y ((m.players m.current).mark)) ∧
    (∀ e, (playStep m pos).1 = some e → (playStep m pos).2 = m) := by
  by_cases hrange : pos < 0 ∨ 7 ≤ pos
  · rw [playStep_out_of_range m hrange]
    refine ⟨by simp [hrange], ?_, ?_, by simp⟩
    · constructor
      · intro hcontra; simp at hcontra
      · rintro ⟨h0, h7, -⟩
        exact absurd hrange (by omega)
    · intro x hx _
      exact absurd hrange (by push_neg; have := x.isLt; omega)
  · have hin : 0 ≤ pos ∧ pos < 7 := by push_neg at hrange; exact hrange
    by_cases hfree : hasFreeSquare m.board (colOf pos) = true
    · obtain ⟨y, hy, hps⟩ := playStep_success m hrange hfree hmark
      rw [hps]
      obtain ⟨hempty, hbelow⟩ := getFirstFree_spec hy
      refine ⟨by simp [hrange], ?_, ?_, by simp⟩
      · constructor
        · intro hcontra; simp at hcontra
        · rintro ⟨-, -, hfull⟩
          have hcol : ((colOf pos).val : ℤ) = pos := by
            unfold colOf
            simp only []
            omega
          exact absurd hempty (hfull (colOf pos) hcol y)
      · intro x hx _
        have hxeq : colOf pos = x := colOf_eq hx
        rw [hxeq] at hy hempty hbelow hps ⊢
        exact ⟨y, hy, hempty, hbelow, rfl, rfl⟩
    · have hfree' : hasFreeSquare m.board (colOf pos) = false := by
        simpa using hfree
      rw [playStep_column_full m hrange hfree']
      refine ⟨by simp; omega, ?_, ?_, by simp⟩
      · constructor
        · intro _
          refine ⟨hin.1, hin.2, ?_⟩
          intro x hx y hyempty
          rw [← colOf_eq hx] at hyempty
          have : hasFreeSquare m.board (colOf pos) = true :=
            (hasFreeSquare_iff _ _).mpr ⟨y, hyempty⟩
          rw [this] at hfree'
          cases hfree'
        · intro _; rfl
      · intro x hx hxfree
        rw [← colOf_eq hx] at hxfree
        rw [hxfree] at hfree'
        cases hfree'

/-- Witness for C1: concrete calls on a fresh Match. The out-of-range call
and the full-column call fail accordingly, and a valid call drops on the
bottom square. -/
theorem C1_play_validation_witness :
    ((playStep ⟨emptyBoard, fun i => if i = 0 then ⟨BLUE, .HUMAN⟩ else ⟨RED, .HUMAN⟩, 0⟩
        7).1 = some .invalidColumn ↔ (7 : ℤ) < 0 ∨ 7 ≤ (7 : ℤ)) ∧
    ((playStep ⟨emptyBoard, fun i => if i = 0 then ⟨BLUE, .HUMAN⟩ else ⟨RED, .HUMAN⟩, 0⟩
        7).1 = some .columnFull ↔
      (0 ≤ (7 : ℤ) ∧ (7 : ℤ) < 7 ∧ ∀ x : Fin 7, (x.val : ℤ) = 7 →
        ∀ y, emptyBoard x y ≠ EMPTY)) ∧
    (∀ x : Fin 7, (x.val : ℤ) = 7 → hasFreeSquare emptyBoard x = true →
      ∃ y, getFirstFreeSquarePos emptyBoard x = some y ∧
        emptyBoard x y = EMPTY ∧ (∀ y', y < y' → emptyBoard x y' ≠ EMPTY) ∧
        (playStep ⟨emptyBoard, fun i => if i = 0 then ⟨BLUE, .HUMAN⟩ else ⟨RED, .HUMAN⟩, 0⟩
          7).1 = none ∧
        (playStep ⟨emptyBoard, fun i => if i = 0 then ⟨BLUE, .HUMAN⟩ else ⟨RED, .HUMAN⟩, 0⟩
          7).2.board = setCell emptyBoard x y BLUE) ∧
    (∀ e, (playStep ⟨emptyBoard, fun i => if i = 0 then ⟨BLUE, .HUMAN⟩ else ⟨RED, .HUMAN⟩, 0⟩
        7).1 = some e →
      (playStep ⟨emptyBoard, fun i => if i = 0 then ⟨BLUE, .HUMAN⟩ else ⟨RED, .HUMAN⟩, 0⟩
        7).2 = ⟨emptyBoard, fun i => if i = 0 then ⟨BLUE, .HUMAN⟩ else ⟨RED, .HUMAN⟩, 0⟩) :=
  C1_play_validation _ 7 (Or.inr rfl)

/-! ### C10: a game-ending move does not advance the turn -/

theorem isOver_false_inv {b : Board} (h : isOver b = false) :
    getSquareTypeWinner b = none := by
  unfold isOver at h
  simp at h
  exact h.2

/-- A drop on a board with no winner can only create a run of the dropped
mark: every run of the new board either contains the changed square, whose
mark is the dropped one, or lay already complete on the old board. -/
theorem winner_after_drop {b : Board} {x : Fin 7} {y : Fin 6} {t tw : SquareType}
    (hpre : getSquareTypeWinner b = none)
    (hw : getSquareTypeWinner (setCell b x y t) = some tw) : tw = t := by
  obtain ⟨htne, w, hwmem, hall⟩ := winner_sound hw
  by_cases hc : (x, y) ∈ cellsOf w
  · have hxy := hall (x, y) hc
    unfold cellAt setCell at hxy
    rw [if_pos ⟨rfl, rfl⟩] at hxy
    exact hxy.symm
  · have hallpre : ∀ c ∈ cellsOf w, cellAt b c = tw := by
      intro c hcmem
      have hpost := hall c hcmem
      have hne : ¬ (c.1 = x ∧ c.2 = y) := by
        rintro ⟨hh1, hh2⟩
        have hcxy : c = (x, y) := Prod.ext hh1 hh2
        exact hc (hcxy ▸ hcmem)
      unfold cellAt setCell at hpost
      rw [if_neg hne] at hpost
      exact hpost
    exact absurd hpre (by
      intro hnone
      exact (winner_none_iff b).mp hnone ⟨tw, htne, w, hwmem, hallpre⟩)

/-- C10: when an accepted play call makes the game over, the turn pointer
is not advanced: the current player afterwards is still the mover; and
when the game ended in a win, the winning mark is the mover mark and
getWinner returns exactly the moving player. The two hypotheses on the
starting state hold in every reachable Match: the room only accepts moves
while the game is not over, and the constructor assigns the two players
distinct marks. -/
theorem C10_terminal_move (m : Match) (pos : ℤ) (m' : Match)
    (hdistinct : (m.players 0).mark ≠ (m.players 1).mark)
    (hpre : isOver m.board = false)
    (hplay : playStep m pos = (none, m'))
    (hpost : isOver m'.board = true) :
    m'.current = m.current ∧ m'.players = m.players ∧
    (∀ t, getSquareTypeWinner m'.board = some t →
      t = (m.players m.current).mark ∧
      getWinner m' = .ok (some (m.players m.current))) := by
  unfold playStep at hplay
  split_ifs at hplay with h1 h2
  · exact absurd hplay (by simp)
  · rcases hfind : getFirstFreeSquarePos m.board (colOf pos) with _ | y
    · rw [hfind] at hplay
      exact absurd hplay (by simp)
    · rw [hfind] at hplay
      dsimp only at hplay
      rcases hset : setSquare m.board ((colOf pos).val : ℤ) (y.val : ℤ)
          ((m.players m.current).mark) with e | b2
      · rw [hset] at hplay
        exact absurd hplay (by simp)
      · rw [hset] at hplay
        obtain ⟨htne, hsetempty, hb2⟩ := setSquare_ok_inv hset
        have hcx : colOf ((colOf pos).val : ℤ) = colOf pos := colOf_eq rfl
        have hcy : rowOf ((y.val : ℤ)) = y := rowOf_eq rfl
        rw [hcx, hcy] at hb2
        injection hplay with hfst hsnd
        have hm' : m' = { m with
            board := b2
            current := if isOver b2 then m.current else m.current + 1 } :=
          hsnd.symm
        have hboard : m'.board = b2 := by rw [hm']
        have hover2 : isOver b2 = true := by rw [← hboard]; exact hpost
        have hcur : m'.current = m.current := by
          rw [hm']
          simp [hover2]
        refine ⟨hcur, by rw [hm'], ?_⟩
        intro t hwin
        have hwnone : getSquareTypeWinner m.board = none := isOver_false_inv hpre
        have ht : t = (m.players m.current).mark := by
          apply winner_after_drop hwnone
          rw [← hb2, ← hboard]
          exact hwin
        refine ⟨ht, ?_⟩
        unfold getWinner
        rw [if_pos hpost, hwin]
        dsimp only
        have hpl : m'.players = m.players := by rw [hm']
        rw [hpl]
        rcases fin2_cases m.current with hc0 | hc1
        · rw [hc0] at ht ⊢
          rw [if_pos ht.symm]
        · rw [hc1] at ht ⊢
          rw [if_neg (fun hcond => hdistinct (ht ▸ hcond))]
  · exact absurd hplay (by simp)

/-- Match used as concrete witness: blue to move with three blue marks
already stacked in column 0. -/
def witnessMatch : Match :=
  ⟨fun x y => if x = 0 ∧ (y = 5 ∨ y = 4 ∨ y = 3) then BLUE else EMPTY,
   fun i => if i = 0 then ⟨BLUE, .HUMAN⟩ else ⟨RED, .HUMAN⟩, 0⟩

/-- Witness for C10: the concrete winning drop of blue in column 0. -/
theorem C10_terminal_move_witness :
    (playStep witnessMatch 0).2.current = witnessMatch.current ∧
    (playStep witnessMatch 0).2.players = witnessMatch.players ∧
    (∀ t, getSquareTypeWinner (playStep witnessMatch 0).2.board = some t →
      t = (witnessMatch.players witnessMatch.current).mark ∧
      getWinner (playStep witnessMatch 0).2 =
        .ok (some (witnessMatch.players witnessMatch.current))) :=
  C10_terminal_move witnessMatch 0 (playStep witnessMatch 0).2
    (by decide) (by decide)
    (Prod.ext (by decide) rfl)
    (by decide)

/-! ### Search: Room minimax with alpha-beta pruning -/

/-- Values of the search: integers extended with the two infinities the
source uses as initial alpha, beta, maxEval and minEval. -/
abbrev EInt := WithBot (WithTop ℤ)

/-- A finite search value. -/
def eint (z : ℤ) : EInt := ((z : WithTop ℤ) : EInt)

/-- Value of a leaf of the search tree, as the base case of Room minimax
computes it: when the position is over, win and loss points according to
the winner scan (0 on a draw); when only the depth is exhausted, the
heuristic score for the searching player. -/
def leafVal (me opp : SquareType) (b : Board) : ℤ :=
  if isOver b then
    match getSquareTypeWinner b with
    | some t => if t = me then WIN_POINTS else if t = opp then OPP_WIN_POINTS else 0
    | none => 0
  else getScore b me

/-- The board after dropping a mark in a column: the copy + setSquare step
of the search loops. For a column taken from getFree the landing row
always exists; the fallback branch is never reached. -/
def dropAt (b : Board) (x : Fin 7) (t : SquareType) : Board :=
  match getFirstFreeSquarePos b x with
  | some y => setCell b x y t
  | none => b

/-- The maximizing loop of Room minimax: children in column order, keep
the strictly best value, raise alpha, stop once beta ≤ alpha. -/
def abMaxGo (f : Board → EInt → EInt → EInt) (me : SquareType) (b : Board) :
    List (Fin 7) → EInt → EInt → EInt → EInt
  | [], _, _, best => best
  | p :: ps, α, β, best =>
    let v := f (dropAt b p me) α β
    let best' := if best < v then v else best
    let α' := max α v
    if β ≤ α' then best' else abMaxGo f me b ps α' β best'

/-- The minimizing loop of Room minimax: children in column order, keep
the least value, lower beta, stop once beta ≤ alpha. -/
def abMinGo (f : Board → EInt → EInt → EInt) (opp : SquareType) (b : Board) :
    List (Fin 7) → EInt → EInt → EInt → EInt
  | [], _, _, best => best
  | p :: ps, α, β, best =>
    let v := f (dropAt b p opp) α β
    let best' := min v best
    let β' := min β v
    if β' ≤ α then best' else abMinGo f opp b ps α β' best'

/-- Room minimax in value mode (first = false). -/
def abVal (me opp : SquareType) : ℕ → Board → EInt → EInt → Bool → EInt
  | 0, b, _, _, _ => eint (leafVal me opp b)
  | d + 1, b, α, β, isMax =>
    if isOver b then eint (leafVal me opp b)
    else if isMax then
      abMaxGo (fun b' α' β' => abVal me opp d b' α' β' false) me b (getFree b) α β ⊥
    else
      abMinGo (fun b' α' β' => abVal me opp d b' α' β' true) opp b (getFree b) α β ⊤

/-- The maximizing loop in first mode, tracking the best column exactly
when the best value strictly improves, as Room minimax does when first is
true. -/
def abFirstGo (f : Board → EInt → EInt → EInt) (me : SquareType) (b : Board) :
    List (Fin 7) → EInt → EInt → EInt → Option (Fin 7) → EInt × Option (Fin 7)
  | [], _, _, best, bp => (best, bp)
  | p :: ps, α, β, best, bp =>
    let v := f (dropAt b p me) α β
    let best' := if best < v then v else best
    let bp' := if best < v then some p else bp
    let α' := max α v
    if β ≤ α' then (best', bp') else abFirstGo f me b ps α' β best' bp'

/-- Room minimax at the public entry point (first = true, window from
minus to plus infinity): the chosen column. When the game is over or the
depth is zero the source would return a score where its caller expects a
column; the model returns none there, and the room never invokes the
search in those states. -/
def minimaxRoot (me opp : SquareType) : ℕ → Board → Option (Fin 7)
  | 0, _ => none
  | d + 1, b =>
    if isOver b then none
    else (abFirstGo (fun b' α' β' => abVal me opp d b' α' β' false) me b
      (getFree b) ⊥ ⊤ ⊥ none).2

/-! ### Brute-force minimax, the reference semantics of the spec -/

/-- Minimax without pruning: same leaves, maximizing nodes fold max over
all children, minimizing nodes fold min, no window. -/
def bfVal (me opp : SquareType) : ℕ → Board → Bool → EInt
  | 0, b, _ => eint (leafVal me opp b)
  | d + 1, b, isMax =>
    if isOver b then eint (leafVal me opp b)
    else if isMax then
      ((getFree b).map (fun p => bfVal me opp d (dropAt b p me) false)).foldl max ⊥
    else
      ((getFree b).map (fun p => bfVal me opp d (dropAt b p opp) true)).foldl min ⊤

/-- Brute-force root choice: free columns in ascending order with strict
improvement, so the first column achieving the maximum wins. -/
def bfGo (tv : Fin 7 → EInt) :
    List (Fin 7) → EInt → Option (Fin 7) → EInt × Option (Fin 7)
  | [], best, bp => (best, bp)
  | p :: ps, best, bp =>
    if best < tv p then bfGo tv ps (tv p) (some p) else bfGo tv ps best bp

/-- Brute-force choice at the public entry point. -/
def bfRoot (me opp : SquareType) : ℕ → Board → Option (Fin 7)
  | 0, _ => none
  | d + 1, b =>
    if isOver b then none
    else (bfGo (fun p => bfVal me opp d (dropAt b p me) false) (getFree b) ⊥ none).2

/-! ### Order helpers for the folded maxima and minima -/

theorem if_lt_eq_max {α : Type} [LinearOrder α] (a b : α) :
    (if a < b then b else a) = max a b := by
  rcases lt_or_ge a b with h | h
  · rw [if_pos h, max_eq_right h.le]
  · rw [if_neg (not_lt_of_ge h), max_eq_left h]

theorem foldl_max_ge_init {α : Type} [LinearOrder α] (a : α) (l : List α) :
    a ≤ l.foldl max a := by
  induction l generalizing a with
  | nil => exact le_refl a
  | cons x xs ih => exact le_trans (le_max_left a x) (ih (max a x))

theorem foldl_max_mono {α : Type} [LinearOrder α] {a b : α} (l : List α) (h : a ≤ b) :
    l.foldl max a ≤ l.foldl max b := by
  induction l generalizing a b with
  | nil => exact h
  | cons x xs ih => exact ih (max_le_max h (le_refl x))

theorem foldl_max_init {α : Type} [LinearOrder α] [OrderBot α] (a : α) (l : List α) :
    l.foldl max a = max a (l.foldl max ⊥) := by
  induction l generalizing a with
  | nil => simp
  | cons x xs ih =>
    show xs.foldl max (max a x) = max a (xs.foldl max (max ⊥ x))
    rw [ih (max a x), max_eq_right (bot_le : (⊥ : α) ≤ x), ih x, max_assoc]

theorem foldl_max_eq_or_mem {α : Type} [LinearOrder α] (a : α) (l : List α) :
    l.foldl max a = a ∨ l.foldl max a ∈ l := by
  induction l generalizing a with
  | nil => exact Or.inl rfl
  | cons x xs ih =>
    show xs.foldl max (max a x) = a ∨ xs.foldl max (max a x) ∈ x :: xs
    rcases ih (max a x) with h | h
    · rcases max_cases a x with ⟨he, -⟩ | ⟨he, -⟩
      · exact Or.inl (by rw [h, he])
      · exact Or.inr (by rw [h, he]; exact List.mem_cons_self x xs)
    · exact Or.inr (List.mem_cons_of_mem x h)

theorem le_foldl_max_of_mem {α : Type} [LinearOrder α] {x : α} {l : List α}
    (a : α) (h : x ∈ l) : x ≤ l.foldl max a := by
  induction l generalizing a with
  | nil => cases h
  | cons y ys ih =>
    rcases List.mem_cons.mp h with rfl | h
    · exact le_trans (le_max_right a x) (foldl_max_ge_init _ _)
    · exact ih (max a y) h

theorem foldl_min_le_init {α : Type} [LinearOrder α] (a : α) (l : List α) :
    l.foldl min a ≤ a := by
  induction l generalizing a with
  | nil => exact le_refl a
  | cons x xs ih => exact le_trans (ih (min a x)) (min_le_left a x)

theorem foldl_min_mono {α : Type} [LinearOrder α] {a b : α} (l : List α) (h : a ≤ b) :
    l.foldl min a ≤ l.foldl min b := by
  induction l generalizing a b with
  | nil => exact h
  | cons x xs ih => exact ih (min_le_min h (le_refl x))

theorem foldl_min_init {α : Type} [LinearOrder α] [OrderTop α] (a : α) (l : List α) :
    l.foldl min a = min a (l.foldl min ⊤) := by
  induction l generalizing a with
  | nil => simp
  | cons x xs ih =>
    show xs.foldl min (min a x) = min a (xs.foldl min (min ⊤ x))
    rw [ih (min a x), min_eq_right (le_top : x ≤ (⊤ : α)), ih x, min_assoc]

theorem foldl_min_eq_or_mem {α : Type} [LinearOrder α] (a : α) (l : List α) :
    l.foldl min a = a ∨ l.foldl min a ∈ l := by
  induction l generalizing a with
  | nil => exact Or.inl rfl
  | cons x xs ih =>
    show xs.foldl min (min a x) = a ∨ xs.foldl min (min a x) ∈ x :: xs
    rcases ih (min a x) with h | h
    · rcases min_cases a x with ⟨he, -⟩ | ⟨he, -⟩
      · exact Or.inl (by rw [h, he])
      · exact Or.inr (by rw [h, he]; exact List.mem_cons_self x xs)
    · exact Or.inr (List.mem_cons_of_mem x h)

theorem foldl_min_le_of_mem {α : Type} [LinearOrder α] {x : α} {l : List α}
    (a : α) (h : x ∈ l) : l.foldl min a ≤ x := by
  induction l generalizing a with
  | nil => cases h
  | cons y ys ih =>
    rcases List.mem_cons.mp h with rfl | h
    · exact le_trans (foldl_min_le_init (min a x) ys) (min_le_right a x)
    · exact ih (min a y) h

/-! ### Finiteness of the search values -/

/-- A search value that is an actual integer, neither infinity. -/
def IsFin (v : EInt) : Prop := ∃ z : ℤ, v = eint z

theorem bot_lt_eint (z : ℤ) : (⊥ : EInt) < eint z := WithBot.bot_lt_coe _

theorem eint_lt_top (z : ℤ) : eint z < ⊤ := by
  rw [show (⊤ : EInt) = ((⊤ : WithTop ℤ) : EInt) from rfl]
  exact WithBot.coe_lt_coe.mpr (WithTop.coe_lt_top z)

theorem IsFin.bot_lt {v : EInt} (h : IsFin v) : (⊥ : EInt) < v := by
  obtain ⟨z, rfl⟩ := h; exact bot_lt_eint z

theorem IsFin.lt_top {v : EInt} (h : IsFin v) : v < ⊤ := by
  obtain ⟨z, rfl⟩ := h; exact eint_lt_top z

theorem isFin_max {a b : EInt} (ha : IsFin a) (hb : IsFin b) : IsFin (max a b) := by
  rcases max_cases a b with ⟨he, -⟩ | ⟨he, -⟩ <;> rw [he] <;> assumption

theorem isFin_min {a b : EInt} (ha : IsFin a) (hb : IsFin b) : IsFin (min a b) := by
  rcases min_cases a b with ⟨he, -⟩ | ⟨he, -⟩ <;> rw [he] <;> assumption

/-! ### Unfolding lemmas for the search loops -/

theorem abMaxGo_cons (f : Board → EInt → EInt → EInt) (me : SquareType) (b : Board)
    (p : Fin 7) (ps : List (Fin 7)) (α β best : EInt) :
    abMaxGo f me b (p :: ps) α β best =
      if β ≤ max α (f (dropAt b p me) α β) then
        max best (f (dropAt b p me) α β)
      else
        abMaxGo f me b ps (max α (f (dropAt b p me) α β)) β
          (max best (f (dropAt b p me) α β)) := by
  show (if β ≤ max α (f (dropAt b p me) α β) then
      (if best < f (dropAt b p me) α β then f (dropAt b p me) α β else best)
    else abMaxGo f me b ps (max α (f (dropAt b p me) α β)) β
      (if best < f (dropAt b p me) α β then f (dropAt b p me) α β else best)) = _
  rw [if_lt_eq_max]

theorem abMinGo_cons (f : Board → EInt → EInt → EInt) (opp : SquareType) (b : Board)
    (p : Fin 7) (ps : List (Fin 7)) (α β best : EInt) :
    abMinGo f opp b (p :: ps) α β best =
      if min β (f (dropAt b p opp) α β) ≤ α then
        min (f (dropAt b p opp) α β) best
      else
        abMinGo f opp b ps α (min β (f (dropAt b p opp) α β))
          (min (f (dropAt b p opp) α β) best) := rfl

theorem abFirstGo_cons (f : Board → EInt → EInt → EInt) (me : SquareType) (b : Board)
    (p : Fin 7) (ps : List (Fin 7)) (α β best : EInt) (bp : Option (Fin 7)) :
    abFirstGo f me b (p :: ps) α β best bp =
      if β ≤ max α (f (dropAt b p me) α β) then
        (max best (f (dropAt b p me) α β),
         if best < f (dropAt b p me) α β then some p else bp)
      else
        abFirstGo f me b ps (max α (f (dropAt b p me) α β)) β
          (max best (f (dropAt b p me) α β))
          (if best < f (dropAt b p me) α β then some p else bp) := by
  show (if β ≤ max α (f (dropAt b p me) α β) then
      ((if best < f (dropAt b p me) α β then f (dropAt b p me) α β else best),
       (if best < f (dropAt b p me) α β then some p else bp))
    else abFirstGo f me b ps (max α (f (dropAt b p me) α β)) β
      (if best < f (dropAt b p me) α β then f (dropAt b p me) α β else best)
      (if best < f (dropAt b p me) α β then some p else bp)) = _
  rw [if_lt_eq_max]

theorem abMaxGo_ge_best (f : Board → EInt → EInt → EInt) (me : SquareType) (b : Board) :
    ∀ (ps : List (Fin 7)) (α β best : EInt), best ≤ abMaxGo f me b ps α β best := by
  intro ps
  induction ps with
  | nil => intro _ _ best; exact le_refl best
  | cons p ps ih =>
    intro α β best
    rw [abMaxGo_cons]
    split
    · exact le_max_left _ _
    · exact le_trans (le_max_left _ _) (ih _ _ _)

theorem abMinGo_le_best (f : Board → EInt → EInt → EInt) (opp : SquareType) (b : Board) :
    ∀ (ps : List (Fin 7)) (α β best : EInt), abMinGo f opp b ps α β best ≤ best := by
  intro ps
  induction ps with
  | nil => intro _ _ best; exact le_refl best
  | cons p ps ih =>
    intro α β best
    rw [abMinGo_cons]
    split
    · exact min_le_right _ _
    · exact le_trans (ih _ _ _) (min_le_right _ _)

/-! ### Fail-soft bounds of the pruned loops against the brute-force folds -/

theorem abMaxGo_bounds (f : Board → EInt → EInt → EInt) (tv : Board → EInt)
    (me : SquareType) (b : Board)
    (hf : ∀ b' α β, α < β →
      (f b' α β ≤ α → tv b' ≤ f b' α β) ∧
      (α < f b' α β → f b' α β < β → f b' α β = tv b') ∧
      (β ≤ f b' α β → f b' α β ≤ tv b')) :
    ∀ (ps : List (Fin 7)) (α β best : EInt), α < β → best ≤ α →
      (abMaxGo f me b ps α β best ≤ α →
        (ps.map (fun p => tv (dropAt b p me))).foldl max best
          ≤ abMaxGo f me b ps α β best) ∧
      (α < abMaxGo f me b ps α β best → abMaxGo f me b ps α β best < β →
        abMaxGo f me b ps α β best
          = (ps.map (fun p => tv (dropAt b p me))).foldl max best) ∧
      (β ≤ abMaxGo f me b ps α β best →
        abMaxGo f me b ps α β best
          ≤ (ps.map (fun p => tv (dropAt b p me))).foldl max best) := by
  intro ps
  induction ps with
  | nil =>
    intro α β best hαβ hbest
    exact ⟨fun _ => le_refl best, fun _ _ => rfl, fun _ => le_refl best⟩
  | cons p ps ih =>
    intro α β best hαβ hbest
    rw [abMaxGo_cons]
    simp only [List.map_cons, List.foldl_cons]
    set v := f (dropAt b p me) α β with hv
    set t := tv (dropAt b p me) with htdef
    obtain ⟨hA, hB, hC⟩ := hf (dropAt b p me) α β hαβ
    by_cases hcut : β ≤ max α v
    · rw [if_pos hcut]
      have hβv : β ≤ v := by
        rcases le_total v α with h | h
        · rw [max_eq_left h] at hcut
          exact absurd (lt_of_le_of_lt hcut hαβ) (lt_irrefl β)
        · rwa [max_eq_right h] at hcut
      have hvt : v ≤ t := hC hβv
      refine ⟨?_, ?_, ?_⟩
      · intro hgα
        exact absurd
          (lt_of_lt_of_le hαβ (le_trans hβv (le_trans (le_max_right best v) hgα)))
          (lt_irrefl α)
      · intro _ hgβ
        exact absurd (lt_of_le_of_lt (le_trans hβv (le_max_right best v)) hgβ)
          (lt_irrefl β)
      · intro _
        exact le_trans (max_le_max (le_refl best) hvt) (foldl_max_ge_init _ _)
    · rw [if_neg hcut]
      have hα'β : max α v < β := lt_of_not_ge hcut
      have hbest' : max best v ≤ max α v := max_le_max hbest (le_refl v)
      have IH := ih (max α v) β (max best v) hα'β hbest'
      rcases le_or_lt v α with hvα | hαv
      · -- dead child: its pruned value lies at or below alpha
        have htv : t ≤ v := hA hvα
        have hαeq : max α v = α := max_eq_left hvα
        rw [hαeq]
        rw [hαeq] at IH
        have hbv_le : max best v ≤ α := hαeq ▸ hbest'
        have hTT' : (ps.map (fun q => tv (dropAt b q me))).foldl max (max best t)
            ≤ (ps.map (fun q => tv (dropAt b q me))).foldl max (max best v) :=
          foldl_max_mono _ (max_le_max (le_refl best) htv)
        have hT'dec : (ps.map (fun q => tv (dropAt b q me))).foldl max (max best v)
            = max (max best v) ((ps.map (fun q => tv (dropAt b q me))).foldl max ⊥) :=
          foldl_max_init _ _
        have hTdec : (ps.map (fun q => tv (dropAt b q me))).foldl max (max best t)
            = max (max best t) ((ps.map (fun q => tv (dropAt b q me))).foldl max ⊥) :=
          foldl_max_init _ _
        refine ⟨?_, ?_, ?_⟩
        · intro hgα
          exact le_trans hTT' (IH.1 hgα)
        · intro hαg hgβ
          have hGT' := IH.2.1 hαg hgβ
          rw [hT'dec] at hGT'
          have hGR : abMaxGo f me b ps α β (max best v)
              = (ps.map (fun q => tv (dropAt b q me))).foldl max ⊥ := by
            rcases max_cases (max best v)
                ((ps.map (fun q => tv (dropAt b q me))).foldl max ⊥) with ⟨he, -⟩ | ⟨he, -⟩
            · rw [he] at hGT'
              rw [hGT'] at hαg
              exact absurd (lt_of_lt_of_le hαg hbv_le) (lt_irrefl α)
            · rw [he] at hGT'; exact hGT'
          have hRα : α < (ps.map (fun q => tv (dropAt b q me))).foldl max ⊥ := by
            rw [← hGR]; exact hαg
          have hbt_le : max best t ≤ α := le_trans (max_le_max (le_refl best) htv) hbv_le
          rw [hTdec, hGR, max_eq_right (le_of_lt (lt_of_le_of_lt hbt_le hRα))]
        · intro hβg
          have hGT' := IH.2.2 hβg
          rw [hT'dec] at hGT'
          have hGR : abMaxGo f me b ps α β (max best v)
              ≤ (ps.map (fun q => tv (dropAt b q me))).foldl max ⊥ := by
            rcases max_cases (max best v)
                ((ps.map (fun q => tv (dropAt b q me))).foldl max ⊥) with ⟨he, -⟩ | ⟨he, -⟩
            · rw [he] at hGT'
              exact absurd
                (lt_of_lt_of_le hαβ (le_trans hβg (le_trans hGT' hbv_le)))
                (lt_irrefl α)
            · rw [he] at hGT'; exact hGT'
          rw [hTdec]
          exact le_trans hGR (le_max_right _ _)
      · rcases lt_or_le v β with hvβ | hβv
        · -- open-window child: its value is exact
          have hteq : v = t := hB hαv hvβ
          rw [← hteq]
          have hα'v : max α v = v := max_eq_right hαv.le
          have hgev : v ≤ abMaxGo f me b ps (max α v) β (max best v) :=
            le_trans (le_max_right best v) (abMaxGo_ge_best f me b ps _ _ _)
          refine ⟨?_, ?_, ?_⟩
          · intro hgα
            exact absurd (lt_of_lt_of_le hαv (le_trans hgev hgα)) (lt_irrefl α)
          · intro hαg hgβ
            rcases le_or_lt (abMaxGo f me b ps (max α v) β (max best v)) (max α v)
              with hle | hgt
            · have hlev : abMaxGo f me b ps (max α v) β (max best v) ≤ v :=
                le_trans hle (le_of_eq hα'v)
              have hgv : abMaxGo f me b ps (max α v) β (max best v) = v :=
                le_antisymm hlev hgev
              have hT'le := IH.1 hle
              rw [hgv] at hT'le
              have hT'ge : max best v
                  ≤ (ps.map (fun q => tv (dropAt b q me))).foldl max (max best v) :=
                foldl_max_ge_init _ _
              rw [hgv]
              exact le_antisymm (le_trans (le_max_right best v) hT'ge) hT'le
            · exact IH.2.1 hgt hgβ
          · intro hβg
            exact IH.2.2 hβg
        · exact absurd (le_trans hβv (le_max_right α v)) hcut

theorem abMinGo_bounds (f : Board → EInt → EInt → EInt) (tv : Board → EInt)
    (opp : SquareType) (b : Board)
    (hf : ∀ b' α β, α < β →
      (f b' α β ≤ α → tv b' ≤ f b' α β) ∧
      (α < f b' α β → f b' α β < β → f b' α β = tv b') ∧
      (β ≤ f b' α β → f b' α β ≤ tv b')) :
    ∀ (ps : List (Fin 7)) (α β best : EInt), α < β → β ≤ best →
      (abMinGo f opp b ps α β best ≤ α →
        (ps.map (fun p => tv (dropAt b p opp))).foldl min best
          ≤ abMinGo f opp b ps α β best) ∧
      (α < abMinGo f opp b ps α β best → abMinGo f opp b ps α β best < β →
        abMinGo f opp b ps α β best
          = (ps.map (fun p => tv (dropAt b p opp))).foldl min best) ∧
      (β ≤ abMinGo f opp b ps α β best →
        abMinGo f opp b ps α β best
          ≤ (ps.map (fun p => tv (dropAt b p opp))).foldl min best) := by
  intro ps
  induction ps with
  | nil =>
    intro α β best hαβ hbest
    exact ⟨fun _ => le_refl best, fun _ _ => rfl, fun _ => le_refl best⟩
  | cons p ps ih =>
    intro α β best hαβ hbest
    rw [abMinGo_cons]
    simp only [List.map_cons, List.foldl_cons]
    set v := f (dropAt b p opp) α β with hv
    set t := tv (dropAt b p opp) with htdef
    obtain ⟨hA, hB, hC⟩ := hf (dropAt b p opp) α β hαβ
    by_cases hcut : min β v ≤ α
    · rw [if_pos hcut]
      have hvα : v ≤ α := by
        rcases le_total v β with h | h
        · rwa [min_eq_right h] at hcut
        · rw [min_eq_left h] at hcut
          exact absurd (lt_of_le_of_lt hcut hαβ) (lt_irrefl β)
      have htv : t ≤ v := hA hvα
      refine ⟨?_, ?_, ?_⟩
      · intro _
        refine le_trans (foldl_min_le_init _ _) ?_
        rw [min_comm v best]
        exact min_le_min (le_refl best) htv
      · intro hαg _
        exact absurd
          (lt_of_lt_of_le hαg (le_trans (min_le_left v best) hvα)) (lt_irrefl α)
      · intro hβg
        exact absurd
          (lt_of_lt_of_le hαβ
            (le_trans hβg (le_trans (min_le_left v best) hvα))) (lt_irrefl α)
    · rw [if_neg hcut]
      have hαβ' : α < min β v := lt_of_not_ge hcut
      have hbest' : min β v ≤ min v best :=
        le_min (min_le_right β v) (le_trans (min_le_left β v) hbest)
      have IH := ih α (min β v) (min v best) hαβ' hbest'
      rcases le_or_lt β v with hβv | hvβ
      · -- dead child at a min node: its pruned value lies at or above beta
        have hvt : v ≤ t := hC hβv
        have hβeq : min β v = β := min_eq_left hβv
        rw [hβeq]
        rw [hβeq] at IH
        have hbv_ge : β ≤ min v best := hβeq ▸ hbest'
        have hT'dec : (ps.map (fun q => tv (dropAt b q opp))).foldl min (min v best)
            = min (min v best) ((ps.map (fun q => tv (dropAt b q opp))).foldl min ⊤) :=
          foldl_min_init _ _
        have hTdec : (ps.map (fun q => tv (dropAt b q opp))).foldl min (min best t)
            = min (min best t) ((ps.map (fun q => tv (dropAt b q opp))).foldl min ⊤) :=
          foldl_min_init _ _
        have hbt_ge : β ≤ min best t :=
          le_min hbest (le_trans hβv hvt)
        refine ⟨?_, ?_, ?_⟩
        · intro hgα
          have hGT' := IH.1 hgα
          rw [hT'dec] at hGT'
          have hRG : ((ps.map (fun q => tv (dropAt b q opp))).foldl min ⊤)
              ≤ abMinGo f opp b ps α β (min v best) := by
            rcases min_cases (min v best)
                ((ps.map (fun q => tv (dropAt b q opp))).foldl min ⊤) with ⟨he, -⟩ | ⟨he, -⟩
            · rw [he] at hGT'
              exact absurd
                (lt_of_lt_of_le hαβ (le_trans hbv_ge (le_trans hGT' hgα)))
                (lt_irrefl α)
            · rw [he] at hGT'; exact hGT'
          rw [hTdec]
          exact le_trans (min_le_right _ _) hRG
        · intro hαg hgβ
          have hGT' := IH.2.1 hαg hgβ
          rw [hT'dec] at hGT'
          have hGR : abMinGo f opp b ps α β (min v best)
              = (ps.map (fun q => tv (dropAt b q opp))).foldl min ⊤ := by
            rcases min_cases (min v best)
                ((ps.map (fun q => tv (dropAt b q opp))).foldl min ⊤) with ⟨he, -⟩ | ⟨he, -⟩
            · rw [he] at hGT'
              rw [hGT'] at hgβ
              exact absurd (lt_of_le_of_lt hbv_ge hgβ) (lt_irrefl β)
            · rw [he] at hGT'; exact hGT'
          have hRβ : (ps.map (fun q => tv (dropAt b q opp))).foldl min ⊤ < β := by
            rw [← hGR]; exact hgβ
          rw [hTdec, hGR, min_eq_right (le_of_lt (lt_of_lt_of_le hRβ hbt_ge))]
        · intro hβg
          have hGT' := IH.2.2 hβg
          rw [hT'dec] at hGT'
          rw [hTdec]
          refine le_min ?_ ?_
          · exact le_trans (abMinGo_le_best f opp b ps α β (min v best))
              (le_min (min_le_right v best) (le_trans (min_le_left v best) hvt))
          · exact le_trans hGT' (min_le_right _ _)
      · rcases lt_or_le α v with hαv | hvα
        · -- open-window child: its value is exact
          have hteq : v = t := hB hαv hvβ
          rw [← hteq, min_comm best v]
          have hβ'v : min β v = v := min_eq_right hvβ.le
          have hlev : abMinGo f opp b ps α (min β v) (min v best) ≤ v :=
            le_trans (abMinGo_le_best f opp b ps _ _ _) (min_le_left v best)
          refine ⟨?_, ?_, ?_⟩
          · intro hgα
            exact IH.1 hgα
          · intro hαg hgβ
            rcases le_or_lt v (abMinGo f opp b ps α (min β v) (min v best))
              with hge | hlt
            · have hgv : abMinGo f opp b ps α (min β v) (min v best) = v :=
                le_antisymm hlev hge
              have hT'ge := IH.2.2 (le_trans (le_of_eq hβ'v) hge)
              rw [hgv] at hT'ge
              have hT'le : (ps.map (fun q => tv (dropAt b q opp))).foldl min (min v best)
                  ≤ min v best := foldl_min_le_init _ _
              rw [hgv]
              exact le_antisymm hT'ge (le_trans hT'le (min_le_left v best))
            · exact IH.2.1 hαg (lt_of_lt_of_le hlt (le_of_eq hβ'v.symm))
          · intro hβg
            exact absurd (lt_of_le_of_lt (le_trans hβg hlev) hvβ) (lt_irrefl β)
        · exact absurd (le_trans (min_le_right β v) hvα) hcut

/-! ### The node-level bounds and the full-window equality -/

theorem abVal_over (me opp : SquareType) (d : ℕ) (b : Board) (α β : EInt)
    (isMax : Bool) (hover : isOver b = true) :
    abVal me opp (d + 1) b α β isMax = eint (leafVal me opp b) := by
  show (if isOver b then eint (leafVal me opp b) else _) = _
  rw [hover]
  rfl

theorem abVal_succ (me opp : SquareType) (d : ℕ) (b : Board) (α β : EInt)
    (isMax : Bool) (hover : isOver b = false) :
    abVal me opp (d + 1) b α β isMax =
      if isMax then
        abMaxGo (fun b' α' β' => abVal me opp d b' α' β' false) me b (getFree b) α β ⊥
      else
        abMinGo (fun b' α' β' => abVal me opp d b' α' β' true) opp b (getFree b) α β ⊤ := by
  show (if isOver b then eint (leafVal me opp b) else _) = _
  rw [hover]
  rfl

theorem bfVal_over (me opp : SquareType) (d : ℕ) (b : Board)
    (isMax : Bool) (hover : isOver b = true) :
    bfVal me opp (d + 1) b isMax = eint (leafVal me opp b) := by
  show (if isOver b then eint (leafVal me opp b) else _) = _
  rw [hover]
  rfl

theorem bfVal_succ (me opp : SquareType) (d : ℕ) (b : Board)
    (isMax : Bool) (hover : isOver b = false) :
    bfVal me opp (d + 1) b isMax =
      if isMax then
        ((getFree b).map (fun p => bfVal me opp d (dropAt b p me) false)).foldl max ⊥
      else
        ((getFree b).map (fun p => bfVal me opp d (dropAt b p opp) true)).foldl min ⊤ := by
  show (if isOver b then eint (leafVal me opp b) else _) = _
  rw [hover]
  rfl

theorem abVal_bounds (me opp : SquareType) :
    ∀ (d : ℕ) (b : Board) (α β : EInt) (isMax : Bool), α < β →
      (abVal me opp d b α β isMax ≤ α →
        bfVal me opp d b isMax ≤ abVal me opp d b α β isMax) ∧
      (α < abVal me opp d b α β isMax → abVal me opp d b α β isMax < β →
        abVal me opp d b α β isMax = bfVal me opp d b isMax) ∧
      (β ≤ abVal me opp d b α β isMax →
        abVal me opp d b α β isMax ≤ bfVal me opp d b isMax) := by
  intro d
  induction d with
  | zero =>
    intro b α β isMax hαβ
    exact ⟨fun _ => le_refl _, fun _ _ => rfl, fun _ => le_refl _⟩
  | succ d ih =>
    intro b α β isMax hαβ
    cases hover : isOver b with
    | true =>
      rw [abVal_over me opp d b α β isMax hover, bfVal_over me opp d b isMax hover]
      exact ⟨fun _ => le_refl _, fun _ _ => rfl, fun _ => le_refl _⟩
    | false =>
      cases isMax with
      | true =>
        rw [abVal_succ me opp d b α β true hover, bfVal_succ me opp d b true hover]
        rw [if_pos rfl, if_pos rfl]
        exact abMaxGo_bounds (fun b' α' β' => abVal me opp d b' α' β' false)
          (fun b' => bfVal me opp d b' false) me b
          (fun b' α' β' h => ih b' α' β' false h) (getFree b) α β ⊥ hαβ bot_le
      | false =>
        rw [abVal_succ me opp d b α β false hover, bfVal_succ me opp d b false hover]
        rw [if_neg (by simp), if_neg (by simp)]
        exact abMinGo_bounds (fun b' α' β' => abVal me opp d b' α' β' true)
          (fun b' => bfVal me opp d b' true) opp b
          (fun b' α' β' h => ih b' α' β' true h) (getFree b) α β ⊤ hαβ le_top

theorem abVal_full_window (me opp : SquareType) (d : ℕ) (b : Board) (isMax : Bool) :
    abVal me opp d b ⊥ ⊤ isMax = bfVal me opp d b isMax := by
  have h := abVal_bounds me opp d b ⊥ ⊤ isMax bot_lt_top
  rcases le_or_lt (abVal me opp d b ⊥ ⊤ isMax) ⊥ with hle | hgt
  · have h1 := h.1 hle
    have h2 : abVal me opp d b ⊥ ⊤ isMax = ⊥ := le_bot_iff.mp hle
    rw [h2] at h1 ⊢
    exact (le_bot_iff.mp h1).symm
  · rcases lt_or_le (abVal me opp d b ⊥ ⊤ isMax) ⊤ with hlt | hge
    · exact h.2.1 hgt hlt
    · have h3 := h.2.2 hge
      have h4 : abVal me opp d b ⊥ ⊤ isMax = ⊤ := top_le_iff.mp hge
      rw [h4] at h3 ⊢
      exact (top_le_iff.mp h3).symm

/-! ### Finiteness of the search values -/

theorem getFree_ne_nil {b : Board} (hover : isOver b = false) : getFree b ≠ [] := by
  unfold isOver at hover
  simp only [Bool.or_eq_false_iff, decide_eq_false_iff_not] at hover
  intro hnil
  exact hover.1 (by rw [hnil]; rfl)

theorem abMaxGo_fin (f : Board → EInt → EInt → EInt) (me : SquareType) (b : Board)
    (hfin : ∀ b' α β, IsFin (f b' α β)) :
    ∀ (ps : List (Fin 7)) (α β best : EInt),
      (IsFin best ∨ (best = ⊥ ∧ ps ≠ [])) → IsFin (abMaxGo f me b ps α β best) := by
  intro ps
  induction ps with
  | nil =>
    intro α β best h
    rcases h with h | ⟨-, hne⟩
    · exact h
    · exact absurd rfl hne
  | cons p ps ih =>
    intro α β best h
    rw [abMaxGo_cons]
    have hbest' : IsFin (max best (f (dropAt b p me) α β)) := by
      rcases h with h | ⟨rfl, -⟩
      · exact isFin_max h (hfin _ _ _)
      · rw [max_eq_right bot_le]
        exact hfin _ _ _
    split
    · exact hbest'
    · exact ih _ _ _ (Or.inl hbest')

theorem abMinGo_fin (f : Board → EInt → EInt → EInt) (opp : SquareType) (b : Board)
    (hfin : ∀ b' α β, IsFin (f b' α β)) :
    ∀ (ps : List (Fin 7)) (α β best : EInt),
      (IsFin best ∨ (best = ⊤ ∧ ps ≠ [])) → IsFin (abMinGo f opp b ps α β best) := by
  intro ps
  induction ps with
  | nil =>
    intro α β best h
    rcases h with h | ⟨-, hne⟩
    · exact h
    · exact absurd rfl hne
  | cons p ps ih =>
    intro α β best h
    rw [abMinGo_cons]
    have hbest' : IsFin (min (f (dropAt b p opp) α β) best) := by
      rcases h with h | ⟨rfl, -⟩
      · exact isFin_min (hfin _ _ _) h
      · rw [min_eq_left le_top]
        exact hfin _ _ _
    split
    · exact hbest'
    · exact ih _ _ _ (Or.inl hbest')

theorem abVal_fin (me opp : SquareType) :
    ∀ (d : ℕ) (b : Board) (α β : EInt) (isMax : Bool),
      IsFin (abVal me opp d b α β isMax) := by
  intro d
  induction d with
  | zero => intro b α β isMax; exact ⟨leafVal me opp b, rfl⟩
  | succ d ih =>
    intro b α β isMax
    cases hover : isOver b with
    | true =>
      rw [abVal_over me opp d b α β isMax hover]
      exact ⟨leafVal me opp b, rfl⟩
    | false =>
      cases isMax with
      | true =>
        rw [abVal_succ me opp d b α β true hover, if_pos rfl]
        exact abMaxGo_fin _ me b (fun b' α' β' => ih b' α' β' false) _ α β ⊥
          (Or.inr ⟨rfl, getFree_ne_nil hover⟩)
      | false =>
        rw [abVal_succ me opp d b α β false hover, if_neg (by simp)]
        exact abMinGo_fin _ opp b (fun b' α' β' => ih b' α' β' true) _ α β ⊤
          (Or.inr ⟨rfl, getFree_ne_nil hover⟩)

theorem foldl_max_fin {l : List EInt} (hne : l ≠ []) (hall : ∀ v ∈ l, IsFin v) :
    IsFin (l.foldl max ⊥) := by
  rcases foldl_max_eq_or_mem (⊥ : EInt) l with h | h
  · rcases l with _ | ⟨x, xs⟩
    · exact absurd rfl hne
    · have hx := hall x (List.mem_cons_self x xs)
      have hle := le_foldl_max_of_mem (⊥ : EInt) (List.mem_cons_self x xs)
      rw [h] at hle
      exact absurd (lt_of_lt_of_le hx.bot_lt hle) (lt_irrefl _)
  · exact hall _ h

theorem foldl_min_fin {l : List EInt} (hne : l ≠ []) (hall : ∀ v ∈ l, IsFin v) :
    IsFin (l.foldl min ⊤) := by
  rcases foldl_min_eq_or_mem (⊤ : EInt) l with h | h
  · rcases l with _ | ⟨x, xs⟩
    · exact absurd rfl hne
    · have hx := hall x (List.mem_cons_self x xs)
      have hle := foldl_min_le_of_mem (⊤ : EInt) (List.mem_cons_self x xs)
      rw [h] at hle
      exact absurd (lt_of_le_of_lt hle hx.lt_top) (lt_irrefl _)
  · exact hall _ h

theorem bfVal_fin (me opp : SquareType) :
    ∀ (d : ℕ) (b : Board) (isMax : Bool), IsFin (bfVal me opp d b isMax) := by
  intro d
  induction d with
  | zero => intro b isMax; exact ⟨leafVal me opp b, rfl⟩
  | succ d ih =>
    intro b isMax
    cases hover : isOver b with
    | true =>
      rw [bfVal_over me opp d b isMax hover]
      exact ⟨leafVal me opp b, rfl⟩
    | false =>
      cases isMax with
      | true =>
        rw [bfVal_succ me opp d b true hover, if_pos rfl]
        refine foldl_max_fin ?_ ?_
        · intro hnil
          exact getFree_ne_nil hover (List.map_eq_nil_iff.mp hnil)
        · intro v hv
          obtain ⟨p, -, rfl⟩ := List.mem_map.mp hv
          exact ih _ false
      | false =>
        rw [bfVal_succ me opp d b false hover, if_neg (by simp)]
        refine foldl_min_fin ?_ ?_
        · intro hnil
          exact getFree_ne_nil hover (List.map_eq_nil_iff.mp hnil)
        · intro v hv
          obtain ⟨p, -, rfl⟩ := List.mem_map.mp hv
          exact ih _ true

/-! ### The chosen column of the pruned and the brute-force roots agree -/

theorem bfGo_cons (tv : Fin 7 → EInt) (p : Fin 7) (ps : List (Fin 7))
    (best : EInt) (bp : Option (Fin 7)) :
    bfGo tv (p :: ps) best bp =
      if best < tv p then bfGo tv ps (tv p) (some p) else bfGo tv ps best bp := rfl

theorem abFirstGo_eq_bfGo (f : Board → EInt → EInt → EInt) (tv : Fin 7 → EInt)
    (me : SquareType) (b : Board)
    (hf : ∀ (p : Fin 7) (α β : EInt), α < β →
      (f (dropAt b p me) α β ≤ α → tv p ≤ f (dropAt b p me) α β) ∧
      (α < f (dropAt b p me) α β → f (dropAt b p me) α β < β →
        f (dropAt b p me) α β = tv p) ∧
      (β ≤ f (dropAt b p me) α β → f (dropAt b p me) α β ≤ tv p))
    (hfin : ∀ b' α β, IsFin (f b' α β)) :
    ∀ (ps : List (Fin 7)) (best : EInt) (bp : Option (Fin 7)), best < ⊤ →
      abFirstGo f me b ps best ⊤ best bp = bfGo tv ps best bp := by
  intro ps
  induction ps with
  | nil => intro best bp _; rfl
  | cons p ps ih =>
    intro best bp hbtop
    rw [abFirstGo_cons, bfGo_cons]
    obtain ⟨hA, hB, hC⟩ := hf p best ⊤ hbtop
    have hvfin := hfin (dropAt b p me) best ⊤
    have hnocut : ¬ ((⊤ : EInt) ≤ max best (f (dropAt b p me) best ⊤)) := by
      intro hcut
      rcases max_cases best (f (dropAt b p me) best ⊤) with ⟨he, -⟩ | ⟨he, -⟩
      · rw [he] at hcut
        exact absurd (lt_of_le_of_lt hcut hbtop) (lt_irrefl ⊤)
      · rw [he] at hcut
        exact absurd (lt_of_le_of_lt hcut hvfin.lt_top) (lt_irrefl ⊤)
    rw [if_neg hnocut]
    rcases lt_or_le best (f (dropAt b p me) best ⊤) with hlt | hle
    · have hveq : f (dropAt b p me) best ⊤ = tv p := hB hlt hvfin.lt_top
      have hlt' : best < tv p := hveq ▸ hlt
      rw [if_pos hlt', if_pos hlt, max_eq_right hlt.le, hveq]
      exact ih (tv p) (some p) (hveq ▸ hvfin.lt_top)
    · have htvle : tv p ≤ best := le_trans (hA hle) hle
      rw [if_neg (not_lt_of_ge htvle), if_neg (not_lt_of_ge hle),
        max_eq_left hle]
      exact ih best bp hbtop

theorem minimaxRoot_eq_bfRoot (me opp : SquareType) (d : ℕ) (b : Board) :
    minimaxRoot me opp d b = bfRoot me opp d b := by
  cases d with
  | zero => rfl
  | succ d =>
    show (if isOver b then none else _) = (if isOver b then none else _)
    cases hover : isOver b with
    | true => rfl
    | false =>
      rw [if_neg (by simp), if_neg (by simp)]
      rw [abFirstGo_eq_bfGo (fun b' α' β' => abVal me opp d b' α' β' false)
        (fun p => bfVal me opp d (dropAt b p me) false) me b
        (fun p α β h => abVal_bounds me opp d (dropAt b p me) α β false h)
        (fun b' α β => abVal_fin me opp d b' α β false)
        (getFree b) ⊥ none bot_lt_top]

/-! ### Characterization of the brute-force root choice -/

theorem bfGo_spec (tv : Fin 7 → EInt) :
    ∀ (ps : List (Fin 7)) (best : EInt) (bp : Option (Fin 7)),
      ps.Pairwise (· < ·) →
      ((bfGo tv ps best bp = (best, bp) ∧ ∀ q ∈ ps, tv q ≤ best) ∨
       (∃ p ∈ ps, (bfGo tv ps best bp).2 = some p ∧ (bfGo tv ps best bp).1 = tv p ∧
         best < tv p ∧ (∀ q ∈ ps, tv q ≤ tv p) ∧
         (∀ q ∈ ps, q < p → tv q < tv p))) := by
  intro ps
  induction ps with
  | nil => intro best bp _; exact Or.inl ⟨rfl, by simp⟩
  | cons p ps ih =>
    intro best bp hsort
    have hsort' : ps.Pairwise (· < ·) := (List.pairwise_cons.mp hsort).2
    have hhead : ∀ q ∈ ps, p < q := (List.pairwise_cons.mp hsort).1
    rw [bfGo_cons]
    rcases lt_or_le best (tv p) with hlt | hle
    · rw [if_pos hlt]
      rcases ih (tv p) (some p) hsort' with ⟨heq, hall⟩ | ⟨r, hr, h2, h1, hbest, hall, htie⟩
      · refine Or.inr ⟨p, List.mem_cons_self p ps, ?_, ?_, hlt, ?_, ?_⟩
        · rw [heq]
        · rw [heq]
        · intro q hq
          rcases List.mem_cons.mp hq with rfl | hq
          · exact le_refl _
          · exact hall q hq
        · intro q hq hqp
          rcases List.mem_cons.mp hq with rfl | hq
          · exact absurd hqp (lt_irrefl q)
          · exact absurd hqp (not_lt_of_gt (hhead q hq))
      · refine Or.inr ⟨r, List.mem_cons_of_mem p hr, h2, h1, lt_trans hlt hbest, ?_, ?_⟩
        · intro q hq
          rcases List.mem_cons.mp hq with rfl | hq
          · exact hbest.le
          · exact hall q hq
        · intro q hq hqr
          rcases List.mem_cons.mp hq with rfl | hq
          · exact hbest
          · exact htie q hq hqr
    · rw [if_neg (not_lt_of_ge hle)]
      rcases ih best bp hsort' with ⟨heq, hall⟩ | ⟨r, hr, h2, h1, hbest, hall, htie⟩
      · refine Or.inl ⟨heq, ?_⟩
        intro q hq
        rcases List.mem_cons.mp hq with rfl | hq
        · exact hle
        · exact hall q hq
      · refine Or.inr ⟨r, List.mem_cons_of_mem p hr, h2, h1, hbest, ?_, ?_⟩
        · intro q hq
          rcases List.mem_cons.mp hq with rfl | hq
          · exact le_trans hle hbest.le
          · exact hall q hq
        · intro q hq hqr
          rcases List.mem_cons.mp hq with rfl | hq
          · exact lt_of_le_of_lt hle hbest
          · exact htie q hq hqr

theorem getFree_sorted (b : Board) : (getFree b).Pairwise (· < ·) := by
  unfold getFree
  exact (List.pairwise_lt_finRange 7).filter _

theorem bfRoot_spec (me opp : SquareType) (d : ℕ) (b : Board)
    (hover : isOver b = false) :
    ∃ p ∈ getFree b, bfRoot me opp (d + 1) b = some p ∧
      (∀ q ∈ getFree b,
        bfVal me opp d (dropAt b q me) false ≤ bfVal me opp d (dropAt b p me) false) ∧
      (∀ q ∈ getFree b, q < p →
        bfVal me opp d (dropAt b q me) false < bfVal me opp d (dropAt b p me) false) := by
  have hspec := bfGo_spec (fun p => bfVal me opp d (dropAt b p me) false)
    (getFree b) ⊥ none (getFree_sorted b)
  have hroot : bfRoot me opp (d + 1) b =
      (bfGo (fun p => bfVal me opp d (dropAt b p me) false) (getFree b) ⊥ none).2 := by
    show (if isOver b then none else _) = _
    rw [hover]
    rfl
  rcases hspec with ⟨-, hall⟩ | ⟨p, hp, h2, h1, -, hall, htie⟩
  · obtain ⟨x, hx⟩ := List.exists_mem_of_ne_nil _ (getFree_ne_nil hover)
    have hxb := hall x hx
    exact absurd (lt_of_lt_of_le (bfVal_fin me opp d (dropAt b x me) false).bot_lt hxb)
      (lt_irrefl _)
  · exact ⟨p, hp, by rw [hroot]; exact h2, hall, htie⟩

/-- C3: with the full initial window, the alpha-beta search returns the
brute-force minimax value at every depth, board and node kind; at the
public entry point it chooses the same column as brute-force minimax; and
when the game is not over that column is a free column achieving the
maximal child value, of lowest index among the columns achieving it. -/
theorem C3_alphabeta_eq_minimax (me opp : SquareType) (d : ℕ) (b : Board) :
    (∀ isMax, abVal me opp d b ⊥ ⊤ isMax = bfVal me opp d b isMax) ∧
    minimaxRoot me opp d b = bfRoot me opp d b ∧
    (∀ d', d = d' + 1 → isOver b = false →
      ∃ p ∈ getFree b, minimaxRoot me opp d b = some p ∧
        (∀ q ∈ getFree b, bfVal me opp d' (dropAt b q me) false
          ≤ bfVal me opp d' (dropAt b p me) false) ∧
        (∀ q ∈ getFree b, q < p → bfVal me opp d' (dropAt b q me) false
          < bfVal me opp d' (dropAt b p me) false)) := by
  refine ⟨fun isMax => abVal_full_window me opp d b isMax,
    minimaxRoot_eq_bfRoot me opp d b, ?_⟩
  rintro d' rfl hover
  obtain ⟨p, hp, heq, hmax, htie⟩ := bfRoot_spec me opp d' b hover
  exact ⟨p, hp, by rw [minimaxRoot_eq_bfRoot]; exact heq, hmax, htie⟩

/-- Witness for C3 at depth 1 on the empty board. -/
theorem C3_alphabeta_eq_minimax_witness :
    (∀ isMax, abVal BLUE RED 1 emptyBoard ⊥ ⊤ isMax = bfVal BLUE RED 1 emptyBoard isMax) ∧
    (∃ p ∈ getFree emptyBoard, minimaxRoot BLUE RED 1 emptyBoard = some p ∧
      (∀ q ∈ getFree emptyBoard, bfVal BLUE RED 0 (dropAt emptyBoard q BLUE) false
        ≤ bfVal BLUE RED 0 (dropAt emptyBoard p BLUE) false) ∧
      (∀ q ∈ getFree emptyBoard, q < p → bfVal BLUE RED 0 (dropAt emptyBoard q BLUE) false
        < bfVal BLUE RED 0 (dropAt emptyBoard p BLUE) false)) :=
  ⟨(C3_alphabeta_eq_minimax BLUE RED 1 emptyBoard).1,
   (C3_alphabeta_eq_minimax BLUE RED 1 emptyBoard).2.2 0 rfl (by decide)⟩

/-! ### C9: a bot-selected column is always a free column -/

theorem minimaxRoot_mem (me opp : SquareType) (d : ℕ) (b : Board)
    (hover : isOver b = false) :
    ∃ p, minimaxRoot me opp (d + 1) b = some p ∧ p ∈ getFree b := by
  obtain ⟨p, hp, heq, -, -⟩ := bfRoot_spec me opp d b hover
  exact ⟨p, by rw [minimaxRoot_eq_bfRoot]; exact heq, hp⟩

theorem playStep_ok_of_free {m : Match} {p : Fin 7} (hp : p ∈ getFree m.board)
    (hmark : (m.players m.current).mark = RED ∨ (m.players m.current).mark = BLUE) :
    (playStep m (p.val : ℤ)).1 = none := by
  have hlt := p.isLt
  have hrange : ¬ ((p.val : ℤ) < 0 ∨ 7 ≤ (p.val : ℤ)) := by
    push_neg
    omega
  have hcol : colOf ((p.val : ℤ)) = p := colOf_eq rfl
  have hfree : hasFreeSquare m.board (colOf ((p.val : ℤ))) = true := by
    rw [hcol]
    exact (mem_getFree_iff m.board p).mp hp
  obtain ⟨y, hy, hps⟩ := playStep_success m hrange hfree hmark
  rw [hps]

/-- The bot move selection of Room.play: minimax at depth 1, 3 or 8 for
the Easy, Normal and Cheat tiers, the first free column for Stupid, a
random free column for Random. The Math.random draw of the source always
produces an index below the number of free columns; it is modelled by the
argument rand reduced modulo that length. -/
def botChoice (m : Match) (rand : ℕ) : Option (Fin 7) :=
  match (m.players m.current).ptype with
  | .HUMAN => none
  | .EASY_BOT =>
    minimaxRoot (m.players m.current).mark (m.players (m.current + 1)).mark 1 m.board
  | .NORMAL_BOT =>
    minimaxRoot (m.players m.current).mark (m.players (m.current + 1)).mark 3 m.board
  | .STUPID_BOT => (getFree m.board).head?
  | .RANDOM_BOT => (getFree m.board).get? (rand % (getFree m.board).length)
  | .CHEAT_BOT =>
    minimaxRoot (m.players m.current).mark (m.players (m.current + 1)).mark 8 m.board

/-- C9: whenever the game is not over and the player to move is
bot-controlled, the column selected by the tier policy is a free column of
the current board, and the chained internal play call on it does not fail.
The mark hypothesis holds in every Match by construction. -/
theorem C9_bot_selects_free (m : Match) (rand : ℕ)
    (hover : isOver m.board = false)
    (hmark : (m.players m.current).mark = RED ∨ (m.players m.current).mark = BLUE)
    (hbot : (m.players m.current).ptype ≠ .HUMAN) :
    ∃ p : Fin 7, botChoice m rand = some p ∧ p ∈ getFree m.board ∧
      (playStep m (p.val : ℤ)).1 = none := by
  unfold botChoice
  cases hpt : (m.players m.current).ptype with
  | HUMAN => exact absurd hpt hbot
  | EASY_BOT =>
    obtain ⟨p, hroot, hp⟩ := minimaxRoot_mem
      (m.players m.current).mark (m.players (m.current + 1)).mark 0 m.board hover
    exact ⟨p, hroot, hp, playStep_ok_of_free hp hmark⟩
  | NORMAL_BOT =>
    obtain ⟨p, hroot, hp⟩ := minimaxRoot_mem
      (m.players m.current).mark (m.players (m.current + 1)).mark 2 m.board hover
    exact ⟨p, hroot, hp, playStep_ok_of_free hp hmark⟩
  | CHEAT_BOT =>
    obtain ⟨p, hroot, hp⟩ := minimaxRoot_mem
      (m.players m.current).mark (m.players (m.current + 1)).mark 7 m.board hover
    exact ⟨p, hroot, hp, playStep_ok_of_free hp hmark⟩
  | STUPID_BOT =>
    rcases hne : getFree m.board with _ | ⟨x, xs⟩
    · exact absurd hne (getFree_ne_nil hover)
    · refine ⟨x, rfl, List.mem_cons_self x xs, ?_⟩
      exact playStep_ok_of_free (hne.symm ▸ List.mem_cons_self x xs) hmark
  | RANDOM_BOT =>
    have hpos : 0 < (getFree m.board).length :=
      List.length_pos.mpr (getFree_ne_nil hover)
    have hidx : rand % (getFree m.board).length < (getFree m.board).length :=
      Nat.mod_lt _ hpos
    refine ⟨(getFree m.board).get ⟨rand % (getFree m.board).length, hidx⟩, ?_, ?_, ?_⟩
    · exact List.get?_eq_get hidx
    · exact List.get_mem _ _ _
    · exact playStep_ok_of_free (List.get_mem _ _ _) hmark

/-- Match used as concrete witness for the bot move: red stupid bot to
move on the empty board. -/
def witnessBotMatch : Match :=
  ⟨emptyBoard, fun i => if i = 0 then ⟨BLUE, .HUMAN⟩ else ⟨RED, .STUPID_BOT⟩, 1⟩

/-- Witness for C9 on a concrete bot Match. -/
theorem C9_bot_selects_free_witness :
    ∃ p : Fin 7, botChoice witnessBotMatch 0 = some p ∧
      p ∈ getFree witnessBotMatch.board ∧
      (playStep witnessBotMatch (p.val : ℤ)).1 = none :=
  C9_bot_selects_free witnessBotMatch 0 (by decide) (by decide) (by decide)

/-! ### C5: independence of Board.copy

The squares of the source are mutable objects owned by a Board; copy
allocates 42 fresh Square objects and transfers the marks. The store
below makes the aliasing explicit: a board is a grid of references, the
store maps every allocated reference to its current mark, and copy
allocates its references above everything allocated so far. -/

/-- A store of square objects: the next fresh reference and the mark held
by every reference. -/
structure Store where
  next : ℕ
  val : ℕ → SquareType

/-- A board as the source holds it: a column-major grid of references to
square objects. -/
structure BoardRef where
  cell : Cell → ℕ

/-- Every reference of the board has been allocated. -/
def WFBoard (st : Store) (br : BoardRef) : Prop :=
  ∀ c : Cell, br.cell c < st.next

/-- Reading the mark of a square through the board. -/
def readR (st : Store) (br : BoardRef) (c : Cell) : SquareType :=
  st.val (br.cell c)

/-- Board.copy: a new Board whose 42 squares are freshly allocated, each
carrying the mark of the corresponding source square (an empty source
square leaves the fresh square empty, an occupied one is set to its
type — either way the fresh square holds the source mark). -/
def decodeCell (k : ℕ) : Cell :=
  (⟨k / 6 % 7, Nat.mod_lt _ (by omega)⟩, ⟨k % 6, Nat.mod_lt _ (by omega)⟩)

def copyR (st : Store) (br : BoardRef) : BoardRef × Store :=
  (⟨fun c => st.next + (c.1.val * 6 + c.2.val)⟩,
   ⟨st.next + 42,
    fun i =>
      if st.next ≤ i ∧ i < st.next + 42 then
        readR st br (decodeCell (i - st.next))
      else st.val i⟩)

/-- Writing a mark through a board reference: the mutation performed by
Board.setSquare through Square.setType. -/
def writeR (st : Store) (br : BoardRef) (c : Cell) (t : SquareType) : Store :=
  ⟨st.next, fun i => if i = br.cell c then t else st.val i⟩

theorem writes_through_clone (st : Store) (br' : BoardRef)
    (hlow : ∀ c : Cell, st.next ≤ br'.cell c) :
    ∀ (ops : List (Cell × SquareType)) (s : Store),
      (∀ i, i < st.next → s.val i = st.val i) →
      ∀ i, i < st.next →
        (ops.foldl (fun s o => writeR s br' o.1 o.2) s).val i = st.val i := by
  intro ops
  induction ops with
  | nil => intro s hs i hi; exact hs i hi
  | cons o os ih =>
    intro s hs i hi
    refine ih (writeR s br' o.1 o.2) ?_ i hi
    intro j hj
    unfold writeR
    have hne : j ≠ br'.cell o.1 := by
      intro hj'
      rw [hj'] at hj
      exact absurd (lt_of_le_of_lt (hlow o.1) hj) (lt_irrefl _)
    simp only []
    rw [if_neg hne]
    exact hs j hj

/-- C5: copy returns a board whose every square holds the same mark as the
corresponding square of the original, reading the original through the
extended store is unchanged, and any sequence of writes performed through
the clone (in particular the drops of a search working on the clone)
leaves every square of the original unchanged. -/
theorem C5_clone_independent (st : Store) (br : BoardRef) (hwf : WFBoard st br) :
    (∀ c : Cell, readR (copyR st br).2 (copyR st br).1 c = readR st br c) ∧
    (∀ c : Cell, readR (copyR st br).2 br c = readR st br c) ∧
    (∀ (ops : List (Cell × SquareType)) (c : Cell),
      readR (ops.foldl (fun s o => writeR s (copyR st br).1 o.1 o.2) (copyR st br).2)
        br c = readR st br c) := by
  have hclone_val : ∀ c : Cell, readR (copyR st br).2 (copyR st br).1 c = readR st br c := by
    intro c
    have h1 := c.1.isLt
    have h2 := c.2.isLt
    show (if st.next ≤ st.next + (c.1.val * 6 + c.2.val) ∧
        st.next + (c.1.val * 6 + c.2.val) < st.next + 42 then
        readR st br (decodeCell (st.next + (c.1.val * 6 + c.2.val) - st.next))
      else st.val (st.next + (c.1.val * 6 + c.2.val))) = readR st br c
    rw [if_pos (by omega)]
    have hk : st.next + (c.1.val * 6 + c.2.val) - st.next = c.1.val * 6 + c.2.val := by
      omega
    rw [hk]
    have hdec : decodeCell (c.1.val * 6 + c.2.val) = c := by
      unfold decodeCell
      refine Prod.ext ?_ ?_ <;> apply Fin.ext
      · show (c.1.val * 6 + c.2.val) / 6 % 7 = c.1.val
        omega
      · show (c.1.val * 6 + c.2.val) % 6 = c.2.val
        omega
    rw [hdec]
  have horig_val : ∀ c : Cell, readR (copyR st br).2 br c = readR st br c := by
    intro c
    show (if st.next ≤ br.cell c ∧ br.cell c < st.next + 42 then
        readR st br (decodeCell (br.cell c - st.next))
      else st.val (br.cell c)) = readR st br c
    rw [if_neg (by intro hcon; exact absurd (lt_of_le_of_lt hcon.1 (hwf c)) (lt_irrefl _))]
    rfl
  refine ⟨hclone_val, horig_val, ?_⟩
  intro ops c
  unfold readR
  refine writes_through_clone st (copyR st br).1 (fun c' => Nat.le_add_right _ _)
    ops (copyR st br).2 ?_ (br.cell c) (hwf c)
  intro i hi
  show (if st.next ≤ i ∧ i < st.next + 42 then
      readR st br (decodeCell (i - st.next))
    else st.val i) = st.val i
  rw [if_neg (by intro hcon; exact absurd (lt_of_le_of_lt hcon.1 hi) (lt_irrefl _))]

/-- Witness for C5 at a concrete store and board. -/
theorem C5_clone_independent_witness :
    (∀ c : Cell,
      readR (copyR ⟨42, fun _ => EMPTY⟩ ⟨fun c => c.1.val * 6 + c.2.val⟩).2
        (copyR ⟨42, fun _ => EMPTY⟩ ⟨fun c => c.1.val * 6 + c.2.val⟩).1 c
        = readR ⟨42, fun _ => EMPTY⟩ ⟨fun c => c.1.val * 6 + c.2.val⟩ c) ∧
    (∀ c : Cell,
      readR (copyR ⟨42, fun _ => EMPTY⟩ ⟨fun c => c.1.val * 6 + c.2.val⟩).2
        ⟨fun c => c.1.val * 6 + c.2.val⟩ c
        = readR ⟨42, fun _ => EMPTY⟩ ⟨fun c => c.1.val * 6 + c.2.val⟩ c) ∧
    (∀ (ops : List (Cell × SquareType)) (c : Cell),
      readR (ops.foldl
          (fun s o => writeR s (copyR ⟨42, fun _ => EMPTY⟩
            ⟨fun c => c.1.val * 6 + c.2.val⟩).1 o.1 o.2)
          (copyR ⟨42, fun _ => EMPTY⟩ ⟨fun c => c.1.val * 6 + c.2.val⟩).2)
        ⟨fun c => c.1.val * 6 + c.2.val⟩ c
        = readR ⟨42, fun _ => EMPTY⟩ ⟨fun c => c.1.val * 6 + c.2.val⟩ c) :=
  C5_clone_independent ⟨42, fun _ => EMPTY⟩ ⟨fun c => c.1.val * 6 + c.2.val⟩
    (fun c => by
      have h1 := c.1.isLt
      have h2 := c.2.isLt
      show c.1.val * 6 + c.2.val < 42
      omega)

end Connect4
